import Mathlib

/-!
# Verification of the XY-Cut++ reading-order core (RapidDocCpp)

Shallow embedding of `src/src/common/config.cpp` (the `xycut.cpp` unit:
`detectTextDirection`, `detail::projectionByBboxes`,
`detail::splitProjectionProfile`, `detail::recursiveXYCut`,
`detail::recursiveYXCut`, `xycutPlusSort`) together with the data model
from `include/common/types.h` (`LayoutBox`) and
`include/reading_order/xycut.h` (`TextDirection`, `XYCutConfig`).

Modelling conventions:
* C++ `float` coordinates are modelled as `ℚ` (exact arithmetic); every
  constant appearing in the source (`1.5f`, `0.5f`, `0.05f`, `0.0f`) is
  exactly representable.
* `static_cast<int>` on a float is truncation toward zero, modelled by
  `cppTrunc`.
* `std::vector<int>` histograms are `List ℤ`; `int` parameters
  (`minValue`, `minGap`) are `ℤ`.
* the recursion of `recursiveXYCut`/`recursiveYXCut` is modelled with an
  explicit fuel parameter; fuel `indices.length + 1` is shown sufficient
  (the fuel-stability theorem for claim C8).
* `std::sort` at the leaf is modelled as insertion sort (the exact
  algorithm libstdc++ uses on short ranges); the comparator is passed
  unchanged.
-/

namespace RapidDoc

set_option maxRecDepth 400000

set_option allowUnsafeReducibility true

attribute [local semireducible] Rat.mul Rat.add Rat.sub Rat.div Rat.inv Rat.neg

/-- `static_cast<int>` applied to a C++ float: truncation toward zero. -/
def cppTrunc (q : ℚ) : ℤ := if 0 ≤ q then ⌊q⌋ else ⌈q⌉

/-- `enum class TextDirection` from `reading_order/xycut.h`. -/
inductive TextDirection where
  | HORIZONTAL
  | VERTICAL
  | AUTO
deriving DecidableEq, Repr

/-- `struct LayoutBox` from `common/types.h`: bounding-box coordinates plus
the fields irrelevant to geometry (category, confidence, original index). -/
structure LayoutBox where
  x0 : ℚ
  y0 : ℚ
  x1 : ℚ
  y1 : ℚ
  category : ℕ := 0
  confidence : ℚ := 0
  index : ℤ := 0
deriving DecidableEq, Repr

namespace LayoutBox

/-- `LayoutBox::width`. -/
def width (b : LayoutBox) : ℚ := b.x1 - b.x0

/-- `LayoutBox::height`. -/
def height (b : LayoutBox) : ℚ := b.y1 - b.y0

/-- x-coordinate of `LayoutBox::center`. -/
def centerX (b : LayoutBox) : ℚ := (b.x0 + b.x1) / 2

/-- y-coordinate of `LayoutBox::center`. -/
def centerY (b : LayoutBox) : ℚ := (b.y0 + b.y1) / 2

instance : Inhabited LayoutBox := ⟨⟨0, 0, 0, 0, 0, 0, 0⟩⟩

end LayoutBox

/-- `struct XYCutConfig` from `reading_order/xycut.h`. -/
structure XYCutConfig where
  direction : TextDirection := .AUTO
  minGapRatio : ℚ := 5 / 100
  minValueRatio : ℚ := 0
deriving DecidableEq, Repr

/-- `detectTextDirection` (config.cpp:190-211).  The two loop counters are
rendered as `countP` over the box list. -/
def detectTextDirection (boxes : List LayoutBox) : TextDirection :=
  if boxes = [] then .HORIZONTAL
  else
    let totalCount := boxes.countP fun b => decide (0 < b.width ∧ 0 < b.height)
    let horizontalCount := boxes.countP fun b =>
      decide (0 < b.width ∧ 0 < b.height ∧ b.height * (3 / 2) ≤ b.width)
    if totalCount = 0 then .HORIZONTAL
    else if (1 / 2 : ℚ) ≤ (horizontalCount : ℚ) / (totalCount : ℚ) then .HORIZONTAL
    else .VERTICAL

/-- The pixel range `[start, end)` that one box contributes to the
projection on `axis` (`0` = X, `1` = Y) of total length `size`
(config.cpp:221-232): `start = max(0, int(lo))`, `end = min(size, int(hi))`. -/
def pixelStart (b : LayoutBox) (axis : ℕ) : ℤ :=
  max 0 (cppTrunc (if axis = 0 then b.x0 else b.y0))

/-- See `pixelStart`. -/
def pixelEnd (b : LayoutBox) (axis : ℕ) (size : ℕ) : ℤ :=
  min (size : ℤ) (cppTrunc (if axis = 0 then b.x1 else b.y1))

/-- The inner `for (int i = start; i < end; i++) projection[i]++;` loop:
entry `i₀ + k` of the list is incremented when it lies in `[s, e)`. -/
def bumpRange (s e : ℤ) : List ℤ → ℕ → List ℤ
  | [], _ => []
  | v :: rest, i => (if s ≤ (i : ℤ) ∧ (i : ℤ) < e then v + 1 else v) :: bumpRange s e rest (i + 1)

/-- `detail::projectionByBboxes` (config.cpp:215-240). -/
def projectionByBboxes (boxes : List LayoutBox) (axis : ℕ) (size : ℕ) : List ℤ :=
  boxes.foldl (fun proj b => bumpRange (pixelStart b axis) (pixelEnd b axis size) proj 0)
    (List.replicate size 0)

/-- The scan loop of `detail::splitProjectionProfile` (config.cpp:253-270)
followed by the final flush (config.cpp:273-275).  `i` is the index of the
next pixel, i.e. the number of pixels already consumed.  In the closing
branch the C++ end position `i - gapCount + 1` (computed after
`gapCount++`, so with `gapCount = g + 1`) equals `i - g`; in every
reachable state `g < i`, so `ℕ` subtraction agrees with `int` arithmetic. -/
def splitGo (minValue minGap : ℤ) :
    List ℤ → ℕ → Bool → ℕ → ℕ → List (ℕ × ℕ) → List (ℕ × ℕ)
  | [], i, inSeg, segStart, _, segs =>
      if inSeg then segs ++ [(segStart, i)] else segs
  | v :: rest, i, inSeg, segStart, gapCount, segs =>
      if minValue < v then
        splitGo minValue minGap rest (i + 1) true (if inSeg then segStart else i) 0 segs
      else if inSeg then
        if minGap ≤ (gapCount : ℤ) + 1 then
          splitGo minValue minGap rest (i + 1) false segStart 0 (segs ++ [(segStart, i - gapCount)])
        else
          splitGo minValue minGap rest (i + 1) true segStart (gapCount + 1) segs
      else
        splitGo minValue minGap rest (i + 1) false segStart gapCount segs

/-- `detail::splitProjectionProfile` (config.cpp:242-278). -/
def splitProjectionProfile (values : List ℤ) (minValue minGap : ℤ) : List (ℕ × ℕ) :=
  splitGo minValue minGap values 0 false 0 0 []

/-- One step of libstdc++ insertion sort, which is what `std::sort` runs on
short ranges: the accumulated prefix is kept in reverse order and the new
element moves left past every element it compares less-than. -/
def insertRev (lt : ℕ → ℕ → Bool) (x : ℕ) : List ℕ → List ℕ
  | [] => [x]
  | y :: ys => if lt x y then y :: insertRev lt x ys else x :: y :: ys

/-- Model of `std::sort(v.begin(), v.end(), lt)` as insertion sort. -/
def cppSort (lt : ℕ → ℕ → Bool) (l : List ℕ) : List ℕ :=
  (l.foldl (fun acc x => insertRev lt x acc) []).reverse

/-- The leaf comparator of `recursiveXYCut` (config.cpp:344-353): same line
when the vertical-center distance is below half the smaller height, then
left-to-right; otherwise top-to-bottom. -/
def cmpXY (boxes : List LayoutBox) (a b : ℕ) : Bool :=
  let ba := boxes.getD a default
  let bb := boxes.getD b default
  let ya := ba.centerY
  let yb := bb.centerY
  let threshold := min ba.height bb.height * (1 / 2)
  if |ya - yb| < threshold then decide (ba.centerX < bb.centerX) else decide (ya < yb)

/-- The leaf comparator of `recursiveYXCut` (config.cpp:418-427): same
column when the horizontal-center distance is below half the smaller
width, then top-to-bottom; otherwise right-to-left. -/
def cmpYX (boxes : List LayoutBox) (a b : ℕ) : Bool :=
  let ba := boxes.getD a default
  let bb := boxes.getD b default
  let xa := ba.centerX
  let xb := bb.centerX
  let threshold := min ba.width bb.width * (1 / 2)
  if |xa - xb| < threshold then decide (ba.centerY < bb.centerY) else decide (xb < xa)

/-- Page dimension used for the projection on an axis. -/
def axisSize (pw ph : ℕ) (axis : ℕ) : ℕ := if axis = 0 then pw else ph

/-- `max(1, int(pageDim * config.minGapRatio))` (config.cpp:301-302). -/
def minGapOf (pw ph : ℕ) (cfg : XYCutConfig) (axis : ℕ) : ℤ :=
  max 1 (cppTrunc ((axisSize pw ph axis : ℚ) * cfg.minGapRatio))

/-- Center coordinate of a box on an axis. -/
def axisCenter (b : LayoutBox) (axis : ℕ) : ℚ :=
  if axis = 0 then b.centerX else b.centerY

/-- Membership test used to build a recursion group (config.cpp:314-317):
`cx >= seg.first && cx < seg.second`. -/
def inSegment (seg : ℕ × ℕ) (c : ℚ) : Prop := (seg.1 : ℚ) ≤ c ∧ c < (seg.2 : ℚ)

instance (seg : ℕ × ℕ) (c : ℚ) : Decidable (inSegment seg c) := by
  unfold inSegment; infer_instance

/-- The group of `indices` whose center on `axis` falls into `seg`
(config.cpp:312-318); `subBoxes[i]` is `boxes[indices[i]]`, so the filter
is expressed directly on `indices`. -/
def segGroup (boxes : List LayoutBox) (axis : ℕ) (seg : ℕ × ℕ) (indices : List ℕ) : List ℕ :=
  indices.filter fun idx => decide (inSegment seg (axisCenter (boxes.getD idx default) axis))

/-- The common recursive structure of `recursiveXYCut` and `recursiveYXCut`
(config.cpp:280-355 and 357-429): the two functions are identical up to
the axis tried first (`a1`) and the leaf comparator.  `fuel` bounds the
recursion depth; fuel `indices.length + 1` is proved sufficient.  A fuel
of `0` (never reached from `xycutPlusSort`) yields `[]`. -/
def recCut (boxes : List LayoutBox) (pw ph : ℕ) (cfg : XYCutConfig) (a1 : ℕ)
    (leafCmp : ℕ → ℕ → Bool) : ℕ → List ℕ → List ℕ
  | 0, _ => []
  | fuel + 1, indices =>
    if indices.length ≤ 1 then indices
    else
      let subBoxes := indices.map fun idx => boxes.getD idx default
      let minVal := cppTrunc cfg.minValueRatio
      let a2 := 1 - a1
      let proj1 := projectionByBboxes subBoxes a1 (axisSize pw ph a1)
      let segs1 := splitProjectionProfile proj1 minVal (minGapOf pw ph cfg a1)
      if 1 < segs1.length then
        (segs1.map fun seg =>
          recCut boxes pw ph cfg a1 leafCmp fuel (segGroup boxes a1 seg indices)).flatten
      else
        let proj2 := projectionByBboxes subBoxes a2 (axisSize pw ph a2)
        let segs2 := splitProjectionProfile proj2 minVal (minGapOf pw ph cfg a2)
        if 1 < segs2.length then
          (segs2.map fun seg =>
            recCut boxes pw ph cfg a1 leafCmp fuel (segGroup boxes a2 seg indices)).flatten
        else
          cppSort leafCmp indices

/-- `detail::recursiveXYCut` (config.cpp:280-355): X first, then Y, leaf
comparator `cmpXY`.  Returns the subsequence appended to `result`. -/
def recursiveXYCut (boxes : List LayoutBox) (fuel : ℕ) (indices : List ℕ)
    (pw ph : ℕ) (cfg : XYCutConfig) : List ℕ :=
  recCut boxes pw ph cfg 0 (cmpXY boxes) fuel indices

/-- `detail::recursiveYXCut` (config.cpp:357-429): Y first, then X, leaf
comparator `cmpYX`. -/
def recursiveYXCut (boxes : List LayoutBox) (fuel : ℕ) (indices : List ℕ)
    (pw ph : ℕ) (cfg : XYCutConfig) : List ℕ :=
  recCut boxes pw ph cfg 1 (cmpYX boxes) fuel indices

/-- `xycutPlusSort` (config.cpp:433-465). -/
def xycutPlusSort (boxes : List LayoutBox) (pw ph : ℕ) (cfg : XYCutConfig) : List ℕ :=
  if boxes = [] then []
  else
    let indices := List.range boxes.length
    let dir := if cfg.direction = .AUTO then detectTextDirection boxes else cfg.direction
    if dir = .HORIZONTAL then recursiveXYCut boxes (boxes.length + 1) indices pw ph cfg
    else recursiveYXCut boxes (boxes.length + 1) indices pw ph cfg

/-- A box covers pixel `t` of the projection on `axis` of length `size`
exactly when `t` lies in the box's span clipped to `[0, size)`. -/
def coversPixel (b : LayoutBox) (axis : ℕ) (size : ℕ) (t : ℕ) : Prop :=
  pixelStart b axis ≤ (t : ℤ) ∧ (t : ℤ) < pixelEnd b axis size

instance (b : LayoutBox) (axis size t : ℕ) : Decidable (coversPixel b axis size t) := by
  unfold coversPixel; infer_instance

/-- A pixel is occupied when its value is strictly greater than `minValue`
(config.cpp:254).  Out-of-range pixels read as `minValue`, hence are
unoccupied. -/
def occupiedAt (values : List ℤ) (minValue : ℤ) (t : ℕ) : Prop :=
  minValue < values.getD t minValue

instance (values : List ℤ) (minValue : ℤ) (t : ℕ) :
    Decidable (occupiedAt values minValue t) := by
  unfold occupiedAt; infer_instance

/-! ### Specification-side definitions used to state the claims -/

/-- Relation that holds between two consecutive segments produced by the
scan: they are separated by a non-empty run of unoccupied pixels of
length at least `minGap`.  (The length bound is stated in `ℤ` because the
C++ `minGap` parameter is an `int`.) -/
def SegRel (vals : List ℤ) (mv mg : ℤ) (p q : ℕ × ℕ) : Prop :=
  p.2 < q.1 ∧ mg ≤ (q.1 : ℤ) - (p.2 : ℤ) ∧
    ∀ t, p.2 ≤ t → t < q.1 → ¬ occupiedAt vals mv t

/-- Invariant of the `splitProjectionProfile` scan, relating the state at
loop index `i` to the processed pixels `0..i-1`. -/
structure SplitInv (vals : List ℤ) (mv mg : ℤ) (i : ℕ) (inSeg : Bool)
    (segStart gapCount : ℕ) (segs : List (ℕ × ℕ)) : Prop where
  ile : i ≤ vals.length
  closed : ∀ p ∈ segs, p.1 < p.2 ∧ p.2 ≤ i ∧ occupiedAt vals mv p.1 ∧
      occupiedAt vals mv (p.2 - 1) ∧ ¬ occupiedAt vals mv p.2
  chain : segs.Chain' (SegRel vals mv mg)
  lastIn : inSeg = true → ∀ p, segs.getLast? = some p →
      p.2 < segStart ∧ mg ≤ (segStart : ℤ) - (p.2 : ℤ) ∧
      ∀ t, p.2 ≤ t → t < segStart → ¬ occupiedAt vals mv t
  lastOut : inSeg = false → ∀ p, segs.getLast? = some p →
      mg ≤ (i : ℤ) - (p.2 : ℤ) ∧ ∀ t, p.2 ≤ t → t < i → ¬ occupiedAt vals mv t
  opn : inSeg = true →
      occupiedAt vals mv segStart ∧ segStart + gapCount + 1 ≤ i ∧
      occupiedAt vals mv (i - 1 - gapCount) ∧ segStart ≤ i - 1 - gapCount ∧
      ∀ t, i - gapCount ≤ t → t < i → ¬ occupiedAt vals mv t
  cover : ∀ t, t < i → occupiedAt vals mv t →
      (∃ p ∈ segs, p.1 ≤ t ∧ t < p.2) ∨ (inSeg = true ∧ segStart ≤ t)

/-- The facts established about the final segment list: every segment is
non-empty, stays inside the histogram, begins at an occupied pixel and
(unless it was flushed at the end of the scan) ends just past its last
occupied pixel; consecutive segments are separated by an unoccupied run
of length at least `minGap`; and every occupied pixel lies in some
segment. -/
def SegsOut (vals : List ℤ) (mv mg : ℤ) (S : List (ℕ × ℕ)) : Prop :=
  (∀ p ∈ S, p.1 < p.2 ∧ p.2 ≤ vals.length ∧ occupiedAt vals mv p.1 ∧
      (p.2 = vals.length ∨ (occupiedAt vals mv (p.2 - 1) ∧ ¬ occupiedAt vals mv p.2))) ∧
  S.Chain' (SegRel vals mv mg) ∧
  (∀ t, t < vals.length → occupiedAt vals mv t → ∃ p ∈ S, p.1 ≤ t ∧ t < p.2)

/-- The claim's "same line" relation for horizontal mode: vertical-center
distance below half the smaller box's height. -/
def specSameLineXY (boxes : List LayoutBox) (a b : ℕ) : Prop :=
  |(boxes.getD a default).centerY - (boxes.getD b default).centerY| <
    min (boxes.getD a default).height (boxes.getD b default).height * (1 / 2)

instance (boxes : List LayoutBox) (a b : ℕ) : Decidable (specSameLineXY boxes a b) := by
  unfold specSameLineXY; infer_instance

/-- Modelled from the claim for C2: the total order the spec asserts for a
horizontal leaf cluster — same-line boxes ordered by horizontal center,
other boxes by vertical center, exact center ties broken by the smaller
original index. -/
def specLeafLtXY (boxes : List LayoutBox) (a b : ℕ) : Prop :=
  (specSameLineXY boxes a b ∧
    ((boxes.getD a default).centerX < (boxes.getD b default).centerX ∨
      ((boxes.getD a default).centerX = (boxes.getD b default).centerX ∧ a < b))) ∨
  (¬ specSameLineXY boxes a b ∧
    ((boxes.getD a default).centerY < (boxes.getD b default).centerY ∨
      ((boxes.getD a default).centerY = (boxes.getD b default).centerY ∧ a < b)))

instance (boxes : List LayoutBox) (a b : ℕ) : Decidable (specLeafLtXY boxes a b) := by
  unfold specLeafLtXY; infer_instance

/-- The claim's "same column" relation for vertical mode:
horizontal-center distance below half the smaller box's width. -/
def specSameColYX (boxes : List LayoutBox) (a b : ℕ) : Prop :=
  |(boxes.getD a default).centerX - (boxes.getD b default).centerX| <
    min (boxes.getD a default).width (boxes.getD b default).width * (1 / 2)

instance (boxes : List LayoutBox) (a b : ℕ) : Decidable (specSameColYX boxes a b) := by
  unfold specSameColYX; infer_instance

/-- Modelled from the claim for C7: the mirrored comparator the spec
asserts for a vertical leaf cluster — same-column boxes top-to-bottom,
otherwise right-to-left. -/
def specLeafLtYX (boxes : List LayoutBox) (a b : ℕ) : Prop :=
  (specSameColYX boxes a b ∧
    (boxes.getD a default).centerY < (boxes.getD b default).centerY) ∨
  (¬ specSameColYX boxes a b ∧
    (boxes.getD b default).centerX < (boxes.getD a default).centerX)

instance (boxes : List LayoutBox) (a b : ℕ) : Decidable (specLeafLtYX boxes a b) := by
  unfold specLeafLtYX; infer_instance

/-- Fixed horizontal-direction configuration (used in concrete inputs). -/
def cfgH : XYCutConfig := { direction := .HORIZONTAL }

/-- Fixed vertical-direction configuration (used in concrete inputs). -/
def cfgV : XYCutConfig := { direction := .VERTICAL }

/-- Three mutually overlapping boxes whose horizontal leaf comparator is
cyclic: boxes 0/1 and 1/2 are "same line" (ordered right-to-left by
x-center) while 0/2 are not (ordered top-to-bottom), giving
`1 < 0`, `2 < 1`, `0 < 2`. -/
def cexBoxesXY : List LayoutBox :=
  [{ x0 := 45, y0 := 25, x1 := 55, y1 := 35 },
   { x0 := 43, y0 := 29, x1 := 53, y1 := 39 },
   { x0 := 41, y0 := 33, x1 := 51, y1 := 43 }]

/-- Mirrored cyclic cluster for the vertical leaf comparator. -/
def cexBoxesYX : List LayoutBox :=
  [{ x0 := 33, y0 := 45, x1 := 43, y1 := 55 },
   { x0 := 29, y0 := 43, x1 := 39, y1 := 53 },
   { x0 := 25, y0 := 41, x1 := 35, y1 := 51 }]

/-- Box 0 lies entirely left of the page; boxes 1 and 2 are separated by a
wide gap, so the X-projection splits and box 0's center falls in no
segment. -/
def cexC1Boxes : List LayoutBox :=
  [{ x0 := -100, y0 := 0, x1 := -50, y1 := 10 },
   { x0 := 10, y0 := 0, x1 := 20, y1 := 10 },
   { x0 := 200, y0 := 0, x1 := 300, y1 := 10 }]

/-- Two boxes with an X-gap of 6 pixels on a 100-wide page (minGap 5:
splits, reading order `[0, 1]`). -/
def cexC9Orig : List LayoutBox :=
  [{ x0 := 0, y0 := 50, x1 := 10, y1 := 90 },
   { x0 := 16, y0 := 10, x1 := 26, y1 := 50 }]

/-- The same two boxes translated by `(+100, 0)` with the page width grown
by the offset to 200 (minGap 10: no split, leaf order `[1, 0]`). -/
def cexC9Shifted : List LayoutBox :=
  [{ x0 := 100, y0 := 50, x1 := 110, y1 := 90 },
   { x0 := 116, y0 := 10, x1 := 126, y1 := 50 }]

/-- Translation of a box by a constant offset (geometry only; category,
confidence and index are unchanged). -/
def translateBox (dx dy : ℤ) (b : LayoutBox) : LayoutBox :=
  { b with x0 := b.x0 + dx, y0 := b.y0 + dy, x1 := b.x1 + dx, y1 := b.y1 + dy }

/-- Shift every segment of a list by `d` pixels. -/
def shiftSegs (d : ℕ) (S : List (ℕ × ℕ)) : List (ℕ × ℕ) :=
  S.map fun p => (p.1 + d, p.2 + d)

/-- Low coordinate of a box on an axis. -/
def axisLo (b : LayoutBox) (axis : ℕ) : ℚ := if axis = 0 then b.x0 else b.y0

/-- High coordinate of a box on an axis. -/
def axisHi (b : LayoutBox) (axis : ℕ) : ℚ := if axis = 0 then b.x1 else b.y1

/-- The component of a translation offset acting on an axis. -/
def axisD (dx dy : ℕ) (axis : ℕ) : ℕ := if axis = 0 then dx else dy

/-- On `axis`, the box has integer coordinates, positive extent, and lies
on a page of size `size` both before and after a shift by `d`. -/
def AxisFits (b : LayoutBox) (axis d size : ℕ) : Prop :=
  ∃ lo hi : ℤ, axisLo b axis = (lo : ℚ) ∧ axisHi b axis = (hi : ℚ) ∧
    0 ≤ lo ∧ lo < hi ∧ hi + (d : ℤ) ≤ (size : ℤ)

/-- The box has integer coordinates, positive width and height, and lies
on the `pw × ph` page both before and after translation by `(dx, dy)`. -/
def IntBoxFits (b : LayoutBox) (dx dy pw ph : ℕ) : Prop :=
  AxisFits b 0 dx pw ∧ AxisFits b 1 dy ph

/-! ### Properties of the profile segmentation scan -/

theorem occupiedAt_iff_getElem (vals : List ℤ) (mv : ℤ) {t : ℕ} (h : t < vals.length) :
    occupiedAt vals mv t ↔ mv < vals[t] := by
  unfold occupiedAt
  rw [List.getD_eq_getElem _ _ h]

theorem not_occupiedAt_of_le (vals : List ℤ) (mv : ℤ) {t : ℕ} (h : vals.length ≤ t) :
    ¬ occupiedAt vals mv t := by
  unfold occupiedAt
  rw [List.getD_eq_default _ _ h]
  exact lt_irrefl mv

/-- Master invariant lemma for the `splitProjectionProfile` scan. -/
theorem splitGo_segsOut (vals : List ℤ) (mv mg : ℤ) :
    ∀ (l : List ℤ) (i : ℕ) (inSeg : Bool) (segStart gapCount : ℕ) (segs : List (ℕ × ℕ)),
      l = vals.drop i →
      SplitInv vals mv mg i inSeg segStart gapCount segs →
      SegsOut vals mv mg (splitGo mv mg l i inSeg segStart gapCount segs) := by
  intro l
  induction l with
  | nil =>
    intro i inSeg segStart gapCount segs hl inv
    have hge : vals.length ≤ i := List.drop_eq_nil_iff.1 hl.symm
    have hi : i = vals.length := le_antisymm inv.ile hge
    subst hi
    cases inSeg with
    | false =>
      simp only [splitGo, if_neg Bool.false_ne_true]
      refine ⟨?_, inv.chain, ?_⟩
      · intro p hp
        obtain ⟨h1, h2, h3, h4, h5⟩ := inv.closed p hp
        exact ⟨h1, h2, h3, Or.inr ⟨h4, h5⟩⟩
      · intro t ht hocc
        rcases inv.cover t ht hocc with h | ⟨hfalse, _⟩
        · exact h
        · exact absurd hfalse (by simp)
    | true =>
      obtain ⟨ho1, ho2, ho3, ho4, ho5⟩ := inv.opn rfl
      show SegsOut vals mv mg (segs ++ [(segStart, vals.length)])
      refine ⟨?_, ?_, ?_⟩
      · intro p hp
        rcases List.mem_append.1 hp with h | h
        · obtain ⟨h1, h2, h3, h4, h5⟩ := inv.closed p h
          exact ⟨h1, h2, h3, Or.inr ⟨h4, h5⟩⟩
        · simp only [List.mem_singleton] at h
          subst h
          exact ⟨by omega, le_refl _, ho1, Or.inl rfl⟩
      · rw [List.chain'_append]
        refine ⟨inv.chain, List.chain'_singleton _, ?_⟩
        intro x hx y hy
        simp only [List.head?_cons, Option.mem_def, Option.some.injEq] at hy
        subst hy
        exact inv.lastIn rfl x hx
      · intro t ht hocc
        rcases inv.cover t ht hocc with ⟨p, hp, hle, hlt⟩ | ⟨_, hst⟩
        · exact ⟨p, List.mem_append_left _ hp, hle, hlt⟩
        · exact ⟨(segStart, vals.length), List.mem_append_right _ (by simp), hst, ht⟩
  | cons v rest ih =>
    intro i inSeg segStart gapCount segs hl inv
    have hi : i < vals.length := by
      by_contra hcon
      push_neg at hcon
      rw [List.drop_eq_nil_of_le hcon] at hl
      exact List.cons_ne_nil _ _ hl
    rw [List.drop_eq_getElem_cons hi] at hl
    have hv : v = vals[i] := (List.cons.injEq _ _ _ _ ▸ hl).1
    have hrest : rest = vals.drop (i + 1) := (List.cons.injEq _ _ _ _ ▸ hl).2
    have hocc_i : occupiedAt vals mv i ↔ mv < v := by
      rw [occupiedAt_iff_getElem vals mv hi, hv]
    by_cases hv' : mv < v
    · -- occupied pixel: open (or continue) a segment, reset the gap counter
      simp only [splitGo, if_pos hv']
      refine ih (i + 1) true (if inSeg then segStart else i) 0 segs hrest ⟨hi, ?_, inv.chain, ?_, ?_, ?_, ?_⟩
      · intro p hp
        obtain ⟨h1, h2, h3, h4, h5⟩ := inv.closed p hp
        exact ⟨h1, by omega, h3, h4, h5⟩
      · intro _ p hp
        cases inSeg with
        | true =>
          rw [if_pos rfl]
          exact inv.lastIn rfl p hp
        | false =>
          rw [if_neg Bool.false_ne_true]
          obtain ⟨h1, h2⟩ := inv.lastOut rfl p hp
          obtain ⟨_, hp2i, _, _, hp5⟩ := inv.closed p (List.mem_of_getLast?_eq_some hp)
          have hne : p.2 ≠ i := fun h => hp5 (h ▸ hocc_i.2 hv')
          exact ⟨by omega, h1, h2⟩
      · intro h
        simp at h
      · intro _
        have hsle : (if inSeg then segStart else i) ≤ i := by
          cases inSeg with
          | true =>
            rw [if_pos rfl]
            have := (inv.opn rfl).2.1
            omega
          | false =>
            rw [if_neg Bool.false_ne_true]
        refine ⟨?_, by omega, ?_, ?_, ?_⟩
        · cases inSeg with
          | true =>
            rw [if_pos rfl]
            exact (inv.opn rfl).1
          | false =>
            rw [if_neg Bool.false_ne_true]
            exact hocc_i.2 hv'
        · show occupiedAt vals mv (i + 1 - 1 - 0)
          simpa using hocc_i.2 hv'
        · simpa using hsle
        · intro t h1 h2
          omega
      · intro t ht hocc2
        rcases Nat.lt_succ_iff_lt_or_eq.1 ht with h | h
        · rcases inv.cover t h hocc2 with hleft | ⟨hseg, hst⟩
          · exact Or.inl hleft
          · refine Or.inr ⟨rfl, ?_⟩
            rw [if_pos hseg]
            exact hst
        · subst h
          refine Or.inr ⟨rfl, ?_⟩
          cases inSeg with
          | true =>
            rw [if_pos rfl]
            have := (inv.opn rfl).2.1
            omega
          | false =>
            rw [if_neg Bool.false_ne_true]
    · -- unoccupied pixel
      simp only [splitGo, if_neg hv']
      cases inSeg with
      | false =>
        rw [if_neg Bool.false_ne_true]
        refine ih (i + 1) false segStart gapCount segs hrest ⟨hi, ?_, inv.chain, ?_, ?_, ?_, ?_⟩
        · intro p hp
          obtain ⟨h1, h2, h3, h4, h5⟩ := inv.closed p hp
          exact ⟨h1, by omega, h3, h4, h5⟩
        · intro h
          simp at h
        · intro _ p hp
          obtain ⟨h1, h2⟩ := inv.lastOut rfl p hp
          refine ⟨by omega, ?_⟩
          intro t h3 h4
          rcases Nat.lt_succ_iff_lt_or_eq.1 h4 with h | h
          · exact h2 t h3 h
          · subst h
            exact fun hc => hv' (hocc_i.1 hc)
        · intro h
          simp at h
        · intro t ht hocc2
          rcases Nat.lt_succ_iff_lt_or_eq.1 ht with h | h
          · rcases inv.cover t h hocc2 with hleft | ⟨hcon, _⟩
            · exact Or.inl hleft
            · simp at hcon
          · subst h
            exact absurd (hocc_i.1 hocc2) hv'
      | true =>
        obtain ⟨ho1, ho2, ho3, ho4, ho5⟩ := inv.opn rfl
        rw [if_pos rfl]
        by_cases hclose : mg ≤ (gapCount : ℤ) + 1
        · rw [if_pos hclose]
          have hgci : gapCount + 1 ≤ i := by omega
          have he1 : i - gapCount - 1 = i - 1 - gapCount := by omega
          refine ih (i + 1) false segStart 0 (segs ++ [(segStart, i - gapCount)]) hrest
            ⟨hi, ?_, ?_, ?_, ?_, ?_, ?_⟩
          · intro p hp
            rcases List.mem_append.1 hp with h | h
            · obtain ⟨h1, h2, h3, h4, h5⟩ := inv.closed p h
              exact ⟨h1, by omega, h3, h4, h5⟩
            · simp only [List.mem_singleton] at h
              subst h
              refine ⟨by omega, by omega, ho1, by rw [he1]; exact ho3, ?_⟩
              rcases Nat.eq_zero_or_pos gapCount with hg0 | hg0
              · subst hg0
                simpa using fun hc => hv' (hocc_i.1 hc)
              · exact ho5 (i - gapCount) (le_refl _) (by omega)
          · rw [List.chain'_append]
            refine ⟨inv.chain, List.chain'_singleton _, ?_⟩
            intro x hx y hy
            simp only [List.head?_cons, Option.mem_def, Option.some.injEq] at hy
            subst hy
            exact inv.lastIn rfl x hx
          · intro h
            simp at h
          · intro _ p hp
            rw [List.getLast?_concat] at hp
            injection hp with hp
            subst hp
            refine ⟨by omega, ?_⟩
            intro t h3 h4
            rcases Nat.lt_succ_iff_lt_or_eq.1 h4 with h | h
            · exact ho5 t h3 h
            · subst h
              exact fun hc => hv' (hocc_i.1 hc)
          · intro h
            simp at h
          · intro t ht hocc2
            rcases Nat.lt_succ_iff_lt_or_eq.1 ht with h | h
            · rcases inv.cover t h hocc2 with ⟨p, hp, h1, h2⟩ | ⟨_, hst⟩
              · exact Or.inl ⟨p, List.mem_append_left _ hp, h1, h2⟩
              · refine Or.inl ⟨(segStart, i - gapCount), List.mem_append_right _ (by simp), hst, ?_⟩
                by_contra hcon
                push_neg at hcon
                exact (ho5 t hcon h) hocc2
            · subst h
              exact absurd (hocc_i.1 hocc2) hv'
        · rw [if_neg hclose]
          refine ih (i + 1) true segStart (gapCount + 1) segs hrest ⟨hi, ?_, inv.chain, ?_, ?_, ?_, ?_⟩
          · intro p hp
            obtain ⟨h1, h2, h3, h4, h5⟩ := inv.closed p hp
            exact ⟨h1, by omega, h3, h4, h5⟩
          · intro _ p hp
            exact inv.lastIn rfl p hp
          · intro h
            simp at h
          · intro _
            have harith : i + 1 - 1 - (gapCount + 1) = i - 1 - gapCount := by omega
            refine ⟨ho1, by omega, by rw [harith]; exact ho3, by rw [harith]; exact ho4, ?_⟩
            intro t h1 h2
            rcases Nat.lt_succ_iff_lt_or_eq.1 h2 with h | h
            · exact ho5 t (by omega) h
            · subst h
              exact fun hc => hv' (hocc_i.1 hc)
          · intro t ht hocc2
            rcases Nat.lt_succ_iff_lt_or_eq.1 ht with h | h
            · rcases inv.cover t h hocc2 with hleft | ⟨_, hst⟩
              · exact Or.inl hleft
              · exact Or.inr ⟨rfl, hst⟩
            · subst h
              exact absurd (hocc_i.1 hocc2) hv'

/-- The initial state satisfies the scan invariant. -/
theorem splitInv_init (vals : List ℤ) (mv mg : ℤ) :
    SplitInv vals mv mg 0 false 0 0 [] := by
  refine ⟨Nat.zero_le _, ?_, List.chain'_nil, ?_, ?_, ?_, ?_⟩
  · intro p hp
    simp at hp
  · intro h
    simp at h
  · intro _ p hp
    simp at hp
  · intro h
    simp at h
  · intro t ht
    omega

/-- `splitProjectionProfile` satisfies all scan output facts. -/
theorem splitProjectionProfile_segsOut (vals : List ℤ) (mv mg : ℤ) :
    SegsOut vals mv mg (splitProjectionProfile vals mv mg) :=
  splitGo_segsOut vals mv mg vals 0 false 0 0 [] (by simp) (splitInv_init vals mv mg)

/-- Consecutive-segment separation propagates to all pairs. -/
theorem segs_pairwise_of_chain {vals : List ℤ} {mv mg : ℤ} {S : List (ℕ × ℕ)}
    (h1 : ∀ p ∈ S, p.1 < p.2) (h2 : S.Chain' (SegRel vals mv mg)) :
    S.Pairwise fun p q => p.2 < q.1 := by
  induction S with
  | nil => exact List.Pairwise.nil
  | cons a t ih =>
    rw [List.chain'_cons'] at h2
    obtain ⟨hhead, htail⟩ := h2
    have hpt : t.Pairwise fun p q => p.2 < q.1 :=
      ih (fun p hp => h1 p (List.mem_cons_of_mem _ hp)) htail
    refine List.Pairwise.cons ?_ hpt
    intro q hq
    cases t with
    | nil => simp at hq
    | cons b t' =>
      have hab : a.2 < b.1 := (hhead b rfl).1
      rcases List.mem_cons.1 hq with rfl | hq'
      · exact hab
      · have hbq : b.2 < q.1 := (List.pairwise_cons.1 hpt).1 q hq'
        have hb : b.1 < b.2 := h1 b (by simp)
        omega

/-- **C3**: `splitProjectionProfile` closes a segment only at an unoccupied
run of length at least `minGap` (a shorter gap never splits), placing the
closed segment's half-open end just past its last occupied pixel (the
separating whitespace belongs to no segment); a segment still open at the
end of the scan is flushed (every occupied pixel lies in a segment); and
an all-zero histogram with `minValue = 0` yields zero segments. -/
theorem claim_C3_splitProfileGapSemantics (values : List ℤ) (minValue minGap : ℤ) :
    ((splitProjectionProfile values minValue minGap).Chain' fun p q =>
        p.2 < q.1 ∧ minGap ≤ (q.1 : ℤ) - (p.2 : ℤ) ∧
        ∀ t, p.2 ≤ t → t < q.1 → ¬ occupiedAt values minValue t) ∧
    (∀ p ∈ splitProjectionProfile values minValue minGap,
        occupiedAt values minValue p.1 ∧ p.1 < p.2 ∧ p.2 ≤ values.length ∧
        (p.2 = values.length ∨
          (occupiedAt values minValue (p.2 - 1) ∧ ¬ occupiedAt values minValue p.2))) ∧
    (∀ t, t < values.length → occupiedAt values minValue t →
        ∃ p ∈ splitProjectionProfile values minValue minGap, p.1 ≤ t ∧ t < p.2) ∧
    (minValue = 0 → (∀ v ∈ values, v = 0) →
        splitProjectionProfile values minValue minGap = []) := by
  obtain ⟨h1, h2, h3⟩ := splitProjectionProfile_segsOut values minValue minGap
  refine ⟨h2, ?_, h3, ?_⟩
  · intro p hp
    obtain ⟨ha, hb, hc, hd⟩ := h1 p hp
    exact ⟨hc, ha, hb, hd⟩
  · intro hmv hall
    cases hS : splitProjectionProfile values minValue minGap with
    | nil => rfl
    | cons p t =>
      have hp : p ∈ splitProjectionProfile values minValue minGap := by
        rw [hS]
        exact List.mem_cons_self _ _
      have hocc := (h1 p hp).2.2.1
      have h0 : values.getD p.1 minValue = 0 := by
        rcases Nat.lt_or_ge p.1 values.length with h | h
        · rw [List.getD_eq_getElem _ _ h]
          exact hall _ (List.getElem_mem h)
        · rw [List.getD_eq_default _ _ h, hmv]
      unfold occupiedAt at hocc
      rw [h0, hmv] at hocc
      exact absurd hocc (lt_irrefl 0)

/-- Witness for C3: a flat histogram under `minValue = 0` produces no
segments. -/
theorem claim_C3_witness : splitProjectionProfile [0, 0, 0] 0 1 = [] :=
  (claim_C3_splitProfileGapSemantics [0, 0, 0] 0 1).2.2.2 rfl (by decide)

/-- **C10**: the segment list returned by `splitProjectionProfile` is
well-formed: each segment satisfies `start < end`, the segments are
pairwise disjoint (each ends no later than any later one starts), and
their positions are strictly increasing. -/
theorem claim_C10_splitSegmentsWellFormed (values : List ℤ) (minValue minGap : ℤ) :
    (∀ p ∈ splitProjectionProfile values minValue minGap, p.1 < p.2) ∧
    (splitProjectionProfile values minValue minGap).Pairwise (fun p q => p.2 ≤ q.1) ∧
    (splitProjectionProfile values minValue minGap).Pairwise (fun p q => p.1 < q.1) := by
  obtain ⟨h1, h2, _⟩ := splitProjectionProfile_segsOut values minValue minGap
  have hlt : ∀ p ∈ splitProjectionProfile values minValue minGap, p.1 < p.2 :=
    fun p hp => (h1 p hp).1
  have hpw := segs_pairwise_of_chain hlt h2
  refine ⟨hlt, hpw.imp fun h => le_of_lt h, ?_⟩
  refine List.Pairwise.imp_of_mem ?_ hpw
  intro p q hp hq h
  have := hlt p hp
  omega

/-- Witness for C10: a two-segment run is strictly ordered. -/
theorem claim_C10_witness :
    (0, 2) ∈ splitProjectionProfile [1, 1, 0, 0, 1] 0 2 ∧ (0 : ℕ) < 2 :=
  ⟨by decide, (claim_C10_splitSegmentsWellFormed [1, 1, 0, 0, 1] 0 2).1 (0, 2) (by decide)⟩

/-- Lock-step comparison of the scan under two gap thresholds `g1 ≤ g2`:
the looser threshold never produces fewer segments. -/
theorem splitGo_length_mono (mv g1 g2 : ℤ) (hg : g1 ≤ g2) :
    ∀ (l : List ℤ) (i : ℕ) (in1 in2 : Bool) (s1 s2 gc1 gc2 : ℕ)
      (segs1 segs2 : List (ℕ × ℕ)),
      (in1 = true → in2 = true ∧ gc1 = gc2) →
      segs2.length + (if in2 = true then 1 else 0) ≤
        segs1.length + (if in1 = true then 1 else 0) →
      (splitGo mv g2 l i in2 s2 gc2 segs2).length ≤
        (splitGo mv g1 l i in1 s1 gc1 segs1).length := by
  intro l
  induction l with
  | nil =>
    intro i in1 in2 s1 s2 gc1 gc2 segs1 segs2 himp hlen
    simp only [splitGo]
    cases in1 <;> cases in2 <;> simp_all <;> omega
  | cons v rest ih =>
    intro i in1 in2 s1 s2 gc1 gc2 segs1 segs2 himp hlen
    simp only [splitGo]
    by_cases hv : mv < v
    · rw [if_pos hv, if_pos hv]
      apply ih
      · exact fun _ => ⟨rfl, rfl⟩
      · cases in1 <;> cases in2 <;> simp_all <;> omega
    · rw [if_neg hv, if_neg hv]
      cases in1 with
      | true =>
        obtain ⟨h2, hgc⟩ := himp rfl
        subst h2
        subst hgc
        rw [if_pos rfl, if_pos rfl]
        by_cases hc2 : g2 ≤ (gc1 : ℤ) + 1
        · have hc1 : g1 ≤ (gc1 : ℤ) + 1 := le_trans hg hc2
          rw [if_pos hc1, if_pos hc2]
          apply ih
          · intro h
            simp at h
          · simp at hlen ⊢
            omega
        · rw [if_neg hc2]
          by_cases hc1 : g1 ≤ (gc1 : ℤ) + 1
          · rw [if_pos hc1]
            apply ih
            · intro h
              simp at h
            · simp at hlen ⊢
              omega
          · rw [if_neg hc1]
            apply ih
            · exact fun _ => ⟨rfl, rfl⟩
            · exact hlen
      | false =>
        rw [if_neg Bool.false_ne_true]
        cases in2 with
        | false =>
          rw [if_neg Bool.false_ne_true]
          apply ih
          · intro h
            simp at h
          · exact hlen
        | true =>
          rw [if_pos rfl]
          by_cases hc2 : g2 ≤ (gc2 : ℤ) + 1
          · rw [if_pos hc2]
            apply ih
            · intro h
              simp at h
            · simp at hlen ⊢
              omega
          · rw [if_neg hc2]
            apply ih
            · intro h
              simp at h
            · exact hlen

/-- `cppTrunc` is monotone. -/
theorem cppTrunc_mono {a b : ℚ} (h : a ≤ b) : cppTrunc a ≤ cppTrunc b := by
  unfold cppTrunc
  by_cases ha : 0 ≤ a
  · rw [if_pos ha, if_pos (le_trans ha h)]
    exact Int.floor_le_floor h
  · rw [if_neg ha]
    by_cases hb : 0 ≤ b
    · rw [if_pos hb]
      calc ⌈a⌉ ≤ 0 := Int.ceil_le.2 (by exact_mod_cast le_of_not_le ha)
        _ ≤ ⌊b⌋ := Int.le_floor.2 (by exact_mod_cast hb)
    · rw [if_neg hb]
      exact Int.ceil_le_ceil h

/-- **C4**: for a fixed histogram and `minValue`, the number of segments
returned by `splitProjectionProfile` is non-increasing in `minGap`;
consequently increasing `minGapRatio` (which enters only through
`minGap = max(1, int(pageDim * minGapRatio))`) never increases the number
of detected segments. -/
theorem claim_C4_segmentsAntitoneInMinGap (values : List ℤ) (minValue minGap minGap' : ℤ)
    (h : minGap ≤ minGap') :
    (splitProjectionProfile values minValue minGap').length ≤
      (splitProjectionProfile values minValue minGap).length ∧
    ∀ (pw ph : ℕ) (axis : ℕ) (cfg cfg' : XYCutConfig),
      cfg.minGapRatio ≤ cfg'.minGapRatio →
      (splitProjectionProfile values minValue (minGapOf pw ph cfg' axis)).length ≤
        (splitProjectionProfile values minValue (minGapOf pw ph cfg axis)).length := by
  constructor
  · exact splitGo_length_mono minValue minGap minGap' h values 0 false false 0 0 0 0 [] []
      (by intro hcon; simp at hcon) (le_refl _)
  · intro pw ph axis cfg cfg' hr
    have hmono : minGapOf pw ph cfg axis ≤ minGapOf pw ph cfg' axis := by
      unfold minGapOf
      have : (axisSize pw ph axis : ℚ) * cfg.minGapRatio ≤
          (axisSize pw ph axis : ℚ) * cfg'.minGapRatio :=
        mul_le_mul_of_nonneg_left hr (by positivity)
      exact max_le_max (le_refl 1) (cppTrunc_mono this)
    exact splitGo_length_mono minValue _ _ hmono values 0 false false 0 0 0 0 [] []
      (by intro hcon; simp at hcon) (le_refl _)

/-- Witness for C4 at a concrete histogram: the gap of width 2 splits under
`minGap = 2` but not under `minGap = 3`. -/
theorem claim_C4_witness :
    (splitProjectionProfile [1, 0, 0, 1] 0 3).length ≤
      (splitProjectionProfile [1, 0, 0, 1] 0 2).length :=
  (claim_C4_segmentsAntitoneInMinGap [1, 0, 0, 1] 0 2 3 (by decide)).1

/-! ### Properties of the axis projection -/

theorem bumpRange_length (s e : ℤ) :
    ∀ (l : List ℤ) (i : ℕ), (bumpRange s e l i).length = l.length := by
  intro l
  induction l with
  | nil => intro i; rfl
  | cons v rest ih =>
    intro i
    simp only [bumpRange, List.length_cons, ih]

theorem bumpRange_getD (s e : ℤ) :
    ∀ (l : List ℤ) (i k : ℕ), k < l.length →
      (bumpRange s e l i).getD k 0 =
        l.getD k 0 + (if s ≤ ((i + k : ℕ) : ℤ) ∧ ((i + k : ℕ) : ℤ) < e then 1 else 0) := by
  intro l
  induction l with
  | nil =>
    intro i k hk
    simp at hk
  | cons v rest ih =>
    intro i k hk
    cases k with
    | zero =>
      simp only [bumpRange, List.getD_cons_zero, Nat.add_zero]
      split <;> omega
    | succ k' =>
      simp only [bumpRange, List.getD_cons_succ]
      rw [ih (i + 1) k' (by simpa using hk)]
      have : i + 1 + k' = i + (k' + 1) := by omega
      rw [this]

theorem projection_foldl_length (axis size : ℕ) :
    ∀ (boxes : List LayoutBox) (init : List ℤ),
      (boxes.foldl (fun proj b => bumpRange (pixelStart b axis) (pixelEnd b axis size) proj 0)
        init).length = init.length := by
  intro boxes
  induction boxes with
  | nil => intro init; rfl
  | cons b bs ih =>
    intro init
    rw [List.foldl_cons, ih, bumpRange_length]

theorem projection_foldl_getD (axis size : ℕ) :
    ∀ (boxes : List LayoutBox) (init : List ℤ) (k : ℕ), k < init.length →
      (boxes.foldl (fun proj b => bumpRange (pixelStart b axis) (pixelEnd b axis size) proj 0)
          init).getD k 0 =
        init.getD k 0 + boxes.countP (fun b => decide (coversPixel b axis size k)) := by
  intro boxes
  induction boxes with
  | nil =>
    intro init k hk
    simp
  | cons b bs ih =>
    intro init k hk
    rw [List.foldl_cons,
      ih (bumpRange (pixelStart b axis) (pixelEnd b axis size) init 0)
        k (by rw [bumpRange_length]; exact hk),
      bumpRange_getD _ _ init 0 k hk, List.countP_cons]
    simp only [Nat.zero_add, coversPixel, decide_eq_true_eq]
    by_cases hcov : pixelStart b axis ≤ (k : ℤ) ∧ (k : ℤ) < pixelEnd b axis size
    · rw [if_pos hcov, if_pos hcov]
      omega
    · rw [if_neg hcov, if_neg hcov]
      omega

theorem projectionByBboxes_length (boxes : List LayoutBox) (axis size : ℕ) :
    (projectionByBboxes boxes axis size).length = size := by
  unfold projectionByBboxes
  rw [projection_foldl_length, List.length_replicate]

/-- Pointwise characterisation of the projection: entry `t` counts the
boxes covering pixel `t`. -/
theorem projectionByBboxes_getD (boxes : List LayoutBox) (axis size : ℕ) {t : ℕ}
    (ht : t < size) :
    (projectionByBboxes boxes axis size).getD t 0 =
      boxes.countP (fun b => decide (coversPixel b axis size t)) := by
  unfold projectionByBboxes
  rw [projection_foldl_getD axis size boxes _ t (by simpa using ht)]
  rw [List.getD_eq_getElem _ _ (by simpa using ht), List.getElem_replicate]
  omega

/-- **C6**: for every list of boxes, axis and positive length,
`projectionByBboxes` returns exactly `length` entries, entry `t` counting
(with multiplicity 1 per box) the boxes whose span, clipped to
`[0, length)`, covers coordinate `t`; out-of-range spans simply contribute
nothing. -/
theorem claim_C6_projectionCounts (boxes : List LayoutBox) (axis size : ℕ)
    (hsize : 0 < size) :
    (projectionByBboxes boxes axis size).length = size ∧
    ∀ t, t < size →
      (projectionByBboxes boxes axis size).getD t 0 =
        boxes.countP (fun b => decide (coversPixel b axis size t)) := by
  refine ⟨projectionByBboxes_length boxes axis size, ?_⟩
  intro t ht
  exact projectionByBboxes_getD boxes axis size ht

/-- Witness for C6: one box of span `[1, 3)` on a page of width 5. -/
theorem claim_C6_witness :
    (projectionByBboxes [{ x0 := 1, y0 := 0, x1 := 3, y1 := 2 }] 0 5).length = 5 ∧
    (projectionByBboxes [{ x0 := 1, y0 := 0, x1 := 3, y1 := 2 }] 0 5).getD 2 0 =
      List.countP (fun b => decide (coversPixel b 0 5 2))
        [{ x0 := 1, y0 := 0, x1 := 3, y1 := 2 }] :=
  ⟨(claim_C6_projectionCounts _ 0 5 (by decide)).1,
   (claim_C6_projectionCounts _ 0 5 (by decide)).2 2 (by decide)⟩

/-! ### Direction detection (C5) -/

/-- **C5**: `detectTextDirection` returns `HORIZONTAL` exactly when the
list is empty, no box has strictly positive width and height, or the
fraction of such boxes that are "wide" (`width ≥ 1.5 * height`) is at
least one half; otherwise it returns `VERTICAL` (never `AUTO`); and the
result depends only on the multiset of `(width, height)` pairs — never on
the order of the list, nor on any box's category, confidence or index. -/
theorem claim_C5_directionVote (boxes : List LayoutBox) :
    (detectTextDirection boxes = .HORIZONTAL ↔
      (boxes = [] ∨
        boxes.countP (fun b => decide (0 < b.width ∧ 0 < b.height)) = 0 ∨
        (1 / 2 : ℚ) ≤
          (boxes.countP (fun b =>
              decide (0 < b.width ∧ 0 < b.height ∧ b.height * (3 / 2) ≤ b.width)) : ℚ) /
            (boxes.countP (fun b => decide (0 < b.width ∧ 0 < b.height)) : ℚ))) ∧
    detectTextDirection boxes ≠ .AUTO ∧
    ∀ boxes' : List LayoutBox,
      (boxes.map fun b => (b.width, b.height)).Perm (boxes'.map fun b => (b.width, b.height)) →
      detectTextDirection boxes = detectTextDirection boxes' := by
  have hcount : ∀ (l : List LayoutBox) (q : ℚ × ℚ → Bool),
      l.countP (fun b => q (b.width, b.height)) = (l.map fun b => (b.width, b.height)).countP q := by
    intro l q
    rw [List.countP_map]
    rfl
  refine ⟨?_, ?_, ?_⟩
  · unfold detectTextDirection
    by_cases hmt : boxes = []
    · rw [if_pos hmt]
      exact ⟨fun _ => Or.inl hmt, fun _ => rfl⟩
    · rw [if_neg hmt]
      by_cases h0 : boxes.countP (fun b => decide (0 < b.width ∧ 0 < b.height)) = 0
      · rw [if_pos h0]
        exact ⟨fun _ => Or.inr (Or.inl h0), fun _ => rfl⟩
      · rw [if_neg h0]
        by_cases hr : (1 / 2 : ℚ) ≤
            (boxes.countP (fun b =>
                decide (0 < b.width ∧ 0 < b.height ∧ b.height * (3 / 2) ≤ b.width)) : ℚ) /
              (boxes.countP (fun b => decide (0 < b.width ∧ 0 < b.height)) : ℚ)
        · rw [if_pos hr]
          exact ⟨fun _ => Or.inr (Or.inr hr), fun _ => rfl⟩
        · rw [if_neg hr]
          constructor
          · intro hcon
            exact TextDirection.noConfusion hcon
          · intro hcon
            rcases hcon with h | h | h
            · exact absurd h hmt
            · exact absurd h h0
            · exact absurd h hr
  · unfold detectTextDirection
    by_cases hmt : boxes = []
    · rw [if_pos hmt]
      exact fun h => TextDirection.noConfusion h
    · rw [if_neg hmt]
      by_cases h0 : boxes.countP (fun b => decide (0 < b.width ∧ 0 < b.height)) = 0
      · rw [if_pos h0]
        exact fun h => TextDirection.noConfusion h
      · rw [if_neg h0]
        by_cases hr : (1 / 2 : ℚ) ≤
            (boxes.countP (fun b =>
                decide (0 < b.width ∧ 0 < b.height ∧ b.height * (3 / 2) ≤ b.width)) : ℚ) /
              (boxes.countP (fun b => decide (0 < b.width ∧ 0 < b.height)) : ℚ)
        · rw [if_pos hr]
          exact fun h => TextDirection.noConfusion h
        · rw [if_neg hr]
          exact fun h => TextDirection.noConfusion h
  · intro boxes' hperm
    have hlenq := hperm.length_eq
    simp only [List.length_map] at hlenq
    have hlen : boxes = [] ↔ boxes' = [] := by
      constructor <;> intro hh
      · subst hh
        exact List.length_eq_zero.1 (by simpa using hlenq.symm)
      · subst hh
        exact List.length_eq_zero.1 (by simpa using hlenq)
    have htot : boxes.countP (fun b => decide (0 < b.width ∧ 0 < b.height)) =
        boxes'.countP (fun b => decide (0 < b.width ∧ 0 < b.height)) := by
      rw [hcount boxes (fun p => decide (0 < p.1 ∧ 0 < p.2)),
        hcount boxes' (fun p => decide (0 < p.1 ∧ 0 < p.2))]
      exact hperm.countP_eq _
    have hwide : boxes.countP (fun b =>
          decide (0 < b.width ∧ 0 < b.height ∧ b.height * (3 / 2) ≤ b.width)) =
        boxes'.countP (fun b =>
          decide (0 < b.width ∧ 0 < b.height ∧ b.height * (3 / 2) ≤ b.width)) := by
      rw [hcount boxes (fun p => decide (0 < p.1 ∧ 0 < p.2 ∧ p.2 * (3 / 2) ≤ p.1)),
        hcount boxes' (fun p => decide (0 < p.1 ∧ 0 < p.2 ∧ p.2 * (3 / 2) ≤ p.1))]
      exact hperm.countP_eq _
    unfold detectTextDirection
    by_cases hmt : boxes = []
    · rw [if_pos hmt, if_pos (hlen.1 hmt)]
    · rw [if_neg hmt, if_neg (fun h => hmt (hlen.2 h)), htot, hwide]

/-- Witness for C5: two wide boxes and one tall box vote `HORIZONTAL`, in
either input order. -/
theorem claim_C5_witness :
    detectTextDirection
        [{ x0 := 0, y0 := 0, x1 := 30, y1 := 10 }, { x0 := 0, y0 := 0, x1 := 10, y1 := 40 },
          { x0 := 0, y0 := 20, x1 := 45, y1 := 30 }] =
      detectTextDirection
        [{ x0 := 0, y0 := 0, x1 := 10, y1 := 40 }, { x0 := 0, y0 := 20, x1 := 45, y1 := 30 },
          { x0 := 0, y0 := 0, x1 := 30, y1 := 10 }] :=
  (claim_C5_directionVote _).2.2 _ (by decide)

/-! ### The leaf sort (C2 / C7) -/

theorem insertRev_perm (lt : ℕ → ℕ → Bool) (x : ℕ) :
    ∀ l : List ℕ, (insertRev lt x l).Perm (x :: l) := by
  intro l
  induction l with
  | nil => exact List.Perm.refl _
  | cons y ys ih =>
    simp only [insertRev]
    by_cases h : lt x y
    · rw [if_pos h]
      exact (List.Perm.cons y ih).trans (List.Perm.swap x y ys)
    · rw [if_neg h]

theorem cppSort_foldl_perm (lt : ℕ → ℕ → Bool) :
    ∀ (l acc : List ℕ),
      (l.foldl (fun a x => insertRev lt x a) acc).Perm (l ++ acc) := by
  intro l
  induction l with
  | nil => intro acc; simp
  | cons x xs ih =>
    intro acc
    rw [List.foldl_cons]
    exact (ih _).trans
      ((List.Perm.append_left xs (insertRev_perm lt x acc)).trans List.perm_middle)

theorem cppSort_perm (lt : ℕ → ℕ → Bool) (l : List ℕ) : (cppSort lt l).Perm l := by
  unfold cppSort
  have h := cppSort_foldl_perm lt l []
  rw [List.append_nil] at h
  exact (List.reverse_perm _).trans h

theorem insertRev_chain (lt : ℕ → ℕ → Bool)
    (hasym : ∀ a b, lt a b = true → lt b a = false) (x : ℕ) :
    ∀ l : List ℕ, l.Chain' (fun a b => lt a b = false) →
      (insertRev lt x l).Chain' (fun a b => lt a b = false) := by
  intro l
  induction l with
  | nil =>
    intro _
    exact List.chain'_singleton x
  | cons y ys ih =>
    intro hch
    rw [List.chain'_cons'] at hch
    obtain ⟨hhead, htail⟩ := hch
    simp only [insertRev]
    by_cases h : lt x y
    · rw [if_pos h]
      rw [List.chain'_cons']
      refine ⟨?_, ih htail⟩
      intro z hz
      cases ys with
      | nil =>
        simp only [insertRev, List.head?_cons, Option.mem_def, Option.some.injEq] at hz
        subst hz
        exact hasym x y h
      | cons w ws =>
        simp only [insertRev] at hz
        by_cases hxw : lt x w
        · rw [if_pos hxw] at hz
          simp only [List.head?_cons, Option.mem_def, Option.some.injEq] at hz
          subst hz
          exact hhead w rfl
        · rw [if_neg hxw] at hz
          simp only [List.head?_cons, Option.mem_def, Option.some.injEq] at hz
          subst hz
          exact hasym x y h
    · rw [if_neg h]
      rw [List.chain'_cons]
      refine ⟨Bool.eq_false_iff.2 h, ?_⟩
      rw [List.chain'_cons']
      exact ⟨hhead, htail⟩

theorem cppSort_foldl_chain (lt : ℕ → ℕ → Bool)
    (hasym : ∀ a b, lt a b = true → lt b a = false) :
    ∀ (l acc : List ℕ), acc.Chain' (fun a b => lt a b = false) →
      (l.foldl (fun a x => insertRev lt x a) acc).Chain' (fun a b => lt a b = false) := by
  intro l
  induction l with
  | nil => intro acc h; exact h
  | cons x xs ih =>
    intro acc h
    rw [List.foldl_cons]
    exact ih _ (insertRev_chain lt hasym x acc h)

/-- The modelled `std::sort` output has no adjacent inversion with respect
to an asymmetric comparator. -/
theorem cppSort_chain (lt : ℕ → ℕ → Bool)
    (hasym : ∀ a b, lt a b = true → lt b a = false) (l : List ℕ) :
    (cppSort lt l).Chain' (fun u v => lt v u = false) := by
  unfold cppSort
  rw [List.chain'_reverse]
  exact cppSort_foldl_chain lt hasym l [] List.chain'_nil

theorem cmpXY_asymm (boxes : List LayoutBox) (a b : ℕ) :
    cmpXY boxes a b = true → cmpXY boxes b a = false := by
  unfold cmpXY
  simp only
  intro h
  by_cases hline : |(boxes.getD a default).centerY - (boxes.getD b default).centerY| <
      min (boxes.getD a default).height (boxes.getD b default).height * (1 / 2)
  · rw [if_pos hline] at h
    have hline' : |(boxes.getD b default).centerY - (boxes.getD a default).centerY| <
        min (boxes.getD b default).height (boxes.getD a default).height * (1 / 2) := by
      rw [abs_sub_comm, min_comm]
      exact hline
    rw [if_pos hline']
    simp only [decide_eq_true_eq] at h ⊢
    simp only [decide_eq_false_iff_not]
    exact lt_asymm h
  · rw [if_neg hline] at h
    have hline' : ¬ |(boxes.getD b default).centerY - (boxes.getD a default).centerY| <
        min (boxes.getD b default).height (boxes.getD a default).height * (1 / 2) := by
      rw [abs_sub_comm, min_comm]
      exact hline
    rw [if_neg hline']
    simp only [decide_eq_true_eq] at h
    simp only [decide_eq_false_iff_not]
    exact lt_asymm h

theorem cmpYX_asymm (boxes : List LayoutBox) (a b : ℕ) :
    cmpYX boxes a b = true → cmpYX boxes b a = false := by
  unfold cmpYX
  simp only
  intro h
  by_cases hline : |(boxes.getD a default).centerX - (boxes.getD b default).centerX| <
      min (boxes.getD a default).width (boxes.getD b default).width * (1 / 2)
  · rw [if_pos hline] at h
    have hline' : |(boxes.getD b default).centerX - (boxes.getD a default).centerX| <
        min (boxes.getD b default).width (boxes.getD a default).width * (1 / 2) := by
      rw [abs_sub_comm, min_comm]
      exact hline
    rw [if_pos hline']
    simp only [decide_eq_true_eq] at h ⊢
    simp only [decide_eq_false_iff_not]
    exact lt_asymm h
  · rw [if_neg hline] at h
    have hline' : ¬ |(boxes.getD b default).centerX - (boxes.getD a default).centerX| <
        min (boxes.getD b default).width (boxes.getD a default).width * (1 / 2) := by
      rw [abs_sub_comm, min_comm]
      exact hline
    rw [if_neg hline']
    simp only [decide_eq_true_eq] at h
    simp only [decide_eq_false_iff_not]
    exact lt_asymm h

/-- When neither projection splits, one recursion step reduces to the
leaf sort. -/
theorem recCut_leaf (boxes : List LayoutBox) (pw ph : ℕ) (cfg : XYCutConfig)
    (a1 : ℕ) (leafCmp : ℕ → ℕ → Bool) (fuel : ℕ) (indices : List ℕ)
    (h2 : 1 < indices.length)
    (hx : ¬ 1 < (splitProjectionProfile
        (projectionByBboxes (indices.map fun idx => boxes.getD idx default) a1
          (axisSize pw ph a1))
        (cppTrunc cfg.minValueRatio) (minGapOf pw ph cfg a1)).length)
    (hy : ¬ 1 < (splitProjectionProfile
        (projectionByBboxes (indices.map fun idx => boxes.getD idx default) (1 - a1)
          (axisSize pw ph (1 - a1)))
        (cppTrunc cfg.minValueRatio) (minGapOf pw ph cfg (1 - a1))).length) :
    recCut boxes pw ph cfg a1 leafCmp (fuel + 1) indices = cppSort leafCmp indices := by
  simp only [recCut]
  rw [if_neg (by omega), if_neg hx, if_neg hy]

/-- **C2 (amended)**: at a leaf cluster (neither projection splits),
`recursiveXYCut` emits the cluster reordered by a comparison sort
(modelled as insertion sort — `std::sort` gives no stability or
equivalent-element guarantee) on the code's comparator: same-line when the
vertical-center distance is below half the smaller height, then by
horizontal center, otherwise by vertical center.  The emitted sequence is
a permutation of the cluster with no adjacent pair inverted.  The
comparator is not transitive in general, so the output need not be
totally sorted, and the code has no index tie-break for exactly equal
centers. -/
theorem claim_C2_leafOrderXYAmended (boxes : List LayoutBox) (pw ph : ℕ) (cfg : XYCutConfig)
    (fuel : ℕ) (indices : List ℕ)
    (h2 : 1 < indices.length)
    (hx : ¬ 1 < (splitProjectionProfile
        (projectionByBboxes (indices.map fun idx => boxes.getD idx default) 0
          (axisSize pw ph 0))
        (cppTrunc cfg.minValueRatio) (minGapOf pw ph cfg 0)).length)
    (hy : ¬ 1 < (splitProjectionProfile
        (projectionByBboxes (indices.map fun idx => boxes.getD idx default) 1
          (axisSize pw ph 1))
        (cppTrunc cfg.minValueRatio) (minGapOf pw ph cfg 1)).length) :
    recursiveXYCut boxes (fuel + 1) indices pw ph cfg = cppSort (cmpXY boxes) indices ∧
    (recursiveXYCut boxes (fuel + 1) indices pw ph cfg).Perm indices ∧
    (recursiveXYCut boxes (fuel + 1) indices pw ph cfg).Chain'
      (fun u v => cmpXY boxes v u = false) ∧
    ∀ a b, cmpXY boxes a b = true ↔
      ((specSameLineXY boxes a b ∧
          (boxes.getD a default).centerX < (boxes.getD b default).centerX) ∨
        (¬ specSameLineXY boxes a b ∧
          (boxes.getD a default).centerY < (boxes.getD b default).centerY)) := by
  have hleaf : recursiveXYCut boxes (fuel + 1) indices pw ph cfg =
      cppSort (cmpXY boxes) indices :=
    recCut_leaf boxes pw ph cfg 0 (cmpXY boxes) fuel indices h2 hx hy
  refine ⟨hleaf, ?_, ?_, ?_⟩
  · rw [hleaf]
    exact cppSort_perm _ _
  · rw [hleaf]
    exact cppSort_chain _ (cmpXY_asymm boxes) _
  · intro a b
    unfold cmpXY
    simp only
    by_cases hline : specSameLineXY boxes a b
    · have hline' := hline
      unfold specSameLineXY at hline'
      rw [if_pos hline']
      simp only [decide_eq_true_eq]
      constructor
      · intro h
        exact Or.inl ⟨hline, h⟩
      · rintro (⟨_, h⟩ | ⟨hn, _⟩)
        · exact h
        · exact absurd hline hn
    · have hline' := hline
      unfold specSameLineXY at hline'
      rw [if_neg hline']
      simp only [decide_eq_true_eq]
      constructor
      · intro h
        exact Or.inr ⟨hline, h⟩
      · rintro (⟨hn, _⟩ | ⟨_, h⟩)
        · exact absurd hn hline
        · exact h

/-- Counterexample to C2 as stated: with the cyclic cluster `cexBoxesXY`
the recursion reaches the leaf (both projections yield exactly one
segment), yet the emitted order `[1, 0, 2]` is not sorted by the claimed
total order — indeed the claimed relation is cyclic here, so no sorted
arrangement exists. -/
theorem claim_C2_counterexample :
    (splitProjectionProfile
        (projectionByBboxes ([0, 1, 2].map fun idx => cexBoxesXY.getD idx default) 0
          (axisSize 100 100 0))
        (cppTrunc cfgH.minValueRatio) (minGapOf 100 100 cfgH 0)).length = 1 ∧
    (splitProjectionProfile
        (projectionByBboxes ([0, 1, 2].map fun idx => cexBoxesXY.getD idx default) 1
          (axisSize 100 100 1))
        (cppTrunc cfgH.minValueRatio) (minGapOf 100 100 cfgH 1)).length = 1 ∧
    recursiveXYCut cexBoxesXY 4 [0, 1, 2] 100 100 cfgH = [1, 0, 2] ∧
    ¬ (recursiveXYCut cexBoxesXY 4 [0, 1, 2] 100 100 cfgH).Pairwise
        (specLeafLtXY cexBoxesXY) :=
  ⟨by decide, by decide, by decide, by decide⟩

/-- Witness for the amended C2 at the concrete cluster. -/
theorem claim_C2_witness :
    (recursiveXYCut cexBoxesXY 4 [0, 1, 2] 100 100 cfgH).Perm [0, 1, 2] :=
  (claim_C2_leafOrderXYAmended cexBoxesXY 100 100 cfgH 3 [0, 1, 2]
    (by decide) (by decide) (by decide)).2.1

/-- **C7 (amended)**: at a leaf cluster, `recursiveYXCut` emits the
cluster reordered by the mirrored comparator — same-column when the
horizontal-center distance is below half the smaller *width*, then
top-to-bottom, otherwise right-to-left — via a comparison sort; the
output is a permutation of the cluster with no adjacent pair inverted,
but the comparator is not transitive in general, so the output need not
be totally sorted. -/
theorem claim_C7_leafOrderYXAmended (boxes : List LayoutBox) (pw ph : ℕ) (cfg : XYCutConfig)
    (fuel : ℕ) (indices : List ℕ)
    (h2 : 1 < indices.length)
    (hy : ¬ 1 < (splitProjectionProfile
        (projectionByBboxes (indices.map fun idx => boxes.getD idx default) 1
          (axisSize pw ph 1))
        (cppTrunc cfg.minValueRatio) (minGapOf pw ph cfg 1)).length)
    (hx : ¬ 1 < (splitProjectionProfile
        (projectionByBboxes (indices.map fun idx => boxes.getD idx default) 0
          (axisSize pw ph 0))
        (cppTrunc cfg.minValueRatio) (minGapOf pw ph cfg 0)).length) :
    recursiveYXCut boxes (fuel + 1) indices pw ph cfg = cppSort (cmpYX boxes) indices ∧
    (recursiveYXCut boxes (fuel + 1) indices pw ph cfg).Perm indices ∧
    (recursiveYXCut boxes (fuel + 1) indices pw ph cfg).Chain'
      (fun u v => cmpYX boxes v u = false) ∧
    ∀ a b, cmpYX boxes a b = true ↔
      ((specSameColYX boxes a b ∧
          (boxes.getD a default).centerY < (boxes.getD b default).centerY) ∨
        (¬ specSameColYX boxes a b ∧
          (boxes.getD b default).centerX < (boxes.getD a default).centerX)) := by
  have hleaf : recursiveYXCut boxes (fuel + 1) indices pw ph cfg =
      cppSort (cmpYX boxes) indices :=
    recCut_leaf boxes pw ph cfg 1 (cmpYX boxes) fuel indices h2 hy hx
  refine ⟨hleaf, ?_, ?_, ?_⟩
  · rw [hleaf]
    exact cppSort_perm _ _
  · rw [hleaf]
    exact cppSort_chain _ (cmpYX_asymm boxes) _
  · intro a b
    unfold cmpYX
    simp only
    by_cases hline : specSameColYX boxes a b
    · have hline' := hline
      unfold specSameColYX at hline'
      rw [if_pos hline']
      simp only [decide_eq_true_eq]
      constructor
      · intro h
        exact Or.inl ⟨hline, h⟩
      · rintro (⟨_, h⟩ | ⟨hn, _⟩)
        · exact h
        · exact absurd hline hn
    · have hline' := hline
      unfold specSameColYX at hline'
      rw [if_neg hline']
      simp only [decide_eq_true_eq]
      constructor
      · intro h
        exact Or.inr ⟨hline, h⟩
      · rintro (⟨hn, _⟩ | ⟨_, h⟩)
        · exact absurd hn hline
        · exact h

/-- Counterexample to C7 as stated: with the mirrored cyclic cluster
`cexBoxesYX` the vertical recursion reaches the leaf, yet the emitted
order `[1, 0, 2]` is not sorted by the claimed mirrored comparator (which
is cyclic on this cluster). -/
theorem claim_C7_counterexample :
    (splitProjectionProfile
        (projectionByBboxes ([0, 1, 2].map fun idx => cexBoxesYX.getD idx default) 1
          (axisSize 100 100 1))
        (cppTrunc cfgV.minValueRatio) (minGapOf 100 100 cfgV 1)).length = 1 ∧
    (splitProjectionProfile
        (projectionByBboxes ([0, 1, 2].map fun idx => cexBoxesYX.getD idx default) 0
          (axisSize 100 100 0))
        (cppTrunc cfgV.minValueRatio) (minGapOf 100 100 cfgV 0)).length = 1 ∧
    recursiveYXCut cexBoxesYX 4 [0, 1, 2] 100 100 cfgV = [1, 0, 2] ∧
    ¬ (recursiveYXCut cexBoxesYX 4 [0, 1, 2] 100 100 cfgV).Pairwise
        (specLeafLtYX cexBoxesYX) :=
  ⟨by decide, by decide, by decide, by decide⟩

/-- Witness for the amended C7 at the concrete cluster. -/
theorem claim_C7_witness :
    (recursiveYXCut cexBoxesYX 4 [0, 1, 2] 100 100 cfgV).Perm [0, 1, 2] :=
  (claim_C7_leafOrderYXAmended cexBoxesYX 100 100 cfgV 3 [0, 1, 2]
    (by decide) (by decide) (by decide)).2.1

/-! ### Geometry of group formation (C8, C1) -/

theorem lt_cppTrunc_imp {x : ℚ} {m : ℕ} (h : (m : ℤ) < cppTrunc x) : (m : ℚ) + 1 ≤ x := by
  unfold cppTrunc at h
  by_cases hx : 0 ≤ x
  · rw [if_pos hx] at h
    have : (m : ℤ) + 1 ≤ ⌊x⌋ := h
    have := Int.le_floor.1 this
    push_cast at this ⊢
    linarith
  · rw [if_neg hx] at h
    have hle : ⌈x⌉ ≤ 0 := Int.ceil_le.2 (by exact_mod_cast le_of_not_le hx)
    omega

theorem cppTrunc_le_imp {x : ℚ} {m : ℕ} (h : cppTrunc x ≤ (m : ℤ)) : x < (m : ℚ) + 1 := by
  unfold cppTrunc at h
  by_cases hx : 0 ≤ x
  · rw [if_pos hx] at h
    have : x < (⌊x⌋ : ℚ) + 1 := Int.lt_floor_add_one x
    have h2 : ((⌊x⌋ : ℤ) : ℚ) ≤ (m : ℚ) := by exact_mod_cast h
    linarith
  · have h0 : x < 0 := lt_of_not_le hx
    have h1 : (0 : ℚ) ≤ (m : ℚ) + 1 := by positivity
    linarith

theorem max0_cppTrunc_le {x : ℚ} {m : ℕ} (h : x < (m : ℚ)) : max 0 (cppTrunc x) ≤ (m : ℤ) := by
  rw [max_le_iff]
  refine ⟨by positivity, ?_⟩
  unfold cppTrunc
  by_cases hx : 0 ≤ x
  · rw [if_pos hx]
    exact le_of_lt (Int.floor_lt.2 (by exact_mod_cast h))
  · rw [if_neg hx]
    have : ⌈x⌉ ≤ 0 := Int.ceil_le.2 (by exact_mod_cast le_of_not_le hx)
    omega

theorem lt_cppTrunc_of_add_one_le {x : ℚ} {m : ℕ} (h : (m : ℚ) + 1 ≤ x) : (m : ℤ) < cppTrunc x := by
  have hx : 0 ≤ x := le_trans (by positivity) h
  unfold cppTrunc
  rw [if_pos hx]
  have : (m : ℤ) + 1 ≤ ⌊x⌋ := Int.le_floor.2 (by push_cast; linarith)
  omega

/-- The center of a box on an axis is the midpoint of its two coordinates
on that axis. -/
theorem axisCenter_eq (b : LayoutBox) (axis : ℕ) :
    axisCenter b axis =
      ((if axis = 0 then b.x0 else b.y0) + (if axis = 0 then b.x1 else b.y1)) / 2 := by
  unfold axisCenter LayoutBox.centerX LayoutBox.centerY
  by_cases h : axis = 0
  · rw [if_pos h, if_pos h, if_pos h]
  · rw [if_neg h, if_neg h, if_neg h]

/-- A box whose center lies strictly left of gap pixel `g` and that covers
some pixel `o` strictly right of `g` also covers `g`. -/
theorem covers_gap_of_covers_right {b : LayoutBox} {axis size g o : ℕ}
    (hgo : g < o) (hc : axisCenter b axis < (g : ℚ))
    (hcov : coversPixel b axis size o) :
    coversPixel b axis size g := by
  obtain ⟨h1, h2⟩ := hcov
  unfold pixelStart at h1
  unfold pixelEnd at h2
  rw [lt_min_iff] at h2
  obtain ⟨hosize, hotrunc⟩ := h2
  have hhige : (o : ℚ) + 1 ≤ (if axis = 0 then b.x1 else b.y1) := lt_cppTrunc_imp hotrunc
  have hc' := hc
  rw [axisCenter_eq] at hc'
  have hloval : (if axis = 0 then b.x0 else b.y0) < (g : ℚ) := by
    have hgo' : (g : ℚ) + 1 ≤ (o : ℚ) := by exact_mod_cast hgo
    nlinarith
  constructor
  · unfold pixelStart
    exact max0_cppTrunc_le hloval
  · unfold pixelEnd
    rw [lt_min_iff]
    constructor
    · omega
    · have : (g : ℤ) < (o : ℤ) := by exact_mod_cast hgo
      omega

/-- A box whose center lies strictly right of gap pixel `g` and that
covers some pixel `o` strictly left of `g` also covers `g` (provided `g`
is on the page). -/
theorem covers_gap_of_covers_left {b : LayoutBox} {axis size o g : ℕ}
    (hog : o < g) (hgsize : g < size)
    (hc : (g : ℚ) + 1 ≤ axisCenter b axis)
    (hcov : coversPixel b axis size o) :
    coversPixel b axis size g := by
  obtain ⟨h1, h2⟩ := hcov
  unfold pixelStart at h1
  unfold pixelEnd at h2
  rw [lt_min_iff] at h2
  obtain ⟨hosize, hotrunc⟩ := h2
  have hloval : (if axis = 0 then b.x0 else b.y0) < (o : ℚ) + 1 := by
    apply cppTrunc_le_imp
    exact le_trans (le_max_right _ _) h1
  have hc' := hc
  rw [axisCenter_eq] at hc'
  have hhival : (g : ℚ) + 1 ≤ (if axis = 0 then b.x1 else b.y1) := by
    have hog' : (o : ℚ) + 1 ≤ (g : ℚ) := by exact_mod_cast hog
    nlinarith
  constructor
  · unfold pixelStart
    have : (o : ℤ) < (g : ℤ) := by exact_mod_cast hog
    omega
  · unfold pixelEnd
    rw [lt_min_iff]
    exact ⟨by omega, lt_cppTrunc_of_add_one_le hhival⟩

/-- Occupancy of a projection pixel in terms of covering-box counts. -/
theorem projection_occ_iff (subBoxes : List LayoutBox) (axis size : ℕ) (mv : ℤ) {t : ℕ}
    (ht : t < size) :
    occupiedAt (projectionByBboxes subBoxes axis size) mv t ↔
      mv < subBoxes.countP (fun b => decide (coversPixel b axis size t)) := by
  have hlen : t < (projectionByBboxes subBoxes axis size).length := by
    rw [projectionByBboxes_length]
    exact ht
  rw [occupiedAt_iff_getElem _ _ hlen, ← List.getD_eq_getElem _ 0 hlen,
    projectionByBboxes_getD subBoxes axis size ht]

/-- Core shrinking lemma: when the projection of the boxes at `indices`
splits into at least two segments, every group is a strict sub-list of
`indices` — a box in a second segment would otherwise have to span the
separating gap, together with enough other boxes to make the gap
occupied. -/
theorem segGroup_length_lt (boxes : List LayoutBox) (indices : List ℕ) (axis size : ℕ)
    (mv mgap : ℤ) (seg : ℕ × ℕ)
    (hseg2 : 1 < (splitProjectionProfile
        (projectionByBboxes (indices.map fun idx => boxes.getD idx default) axis size)
        mv mgap).length)
    (hmem : seg ∈ splitProjectionProfile
        (projectionByBboxes (indices.map fun idx => boxes.getD idx default) axis size)
        mv mgap) :
    (segGroup boxes axis seg indices).length < indices.length := by
  by_contra hcon
  push_neg at hcon
  have hfl : (segGroup boxes axis seg indices).length = indices.length :=
    le_antisymm (List.length_filter_le _ _) hcon
  have hfeq : segGroup boxes axis seg indices = indices :=
    (List.filter_sublist _).eq_of_length hfl
  have hall : ∀ idx ∈ indices,
      inSegment seg (axisCenter (boxes.getD idx default) axis) := by
    intro idx hidx
    have := List.filter_eq_self.1 hfeq idx hidx
    simpa using this
  have hallsub : ∀ b ∈ indices.map fun idx => boxes.getD idx default,
      inSegment seg (axisCenter b axis) := by
    intro b hb
    rw [List.mem_map] at hb
    obtain ⟨idx, hidx, rfl⟩ := hb
    exact hall idx hidx
  obtain ⟨hfacts, hchain, _⟩ :=
    splitProjectionProfile_segsOut
      (projectionByBboxes (indices.map fun idx => boxes.getD idx default) axis size) mv mgap
  have hplen : (projectionByBboxes (indices.map fun idx => boxes.getD idx default)
      axis size).length = size := projectionByBboxes_length _ axis size
  obtain ⟨j, hj, hsegj⟩ := List.mem_iff_getElem.1 hmem
  have hklen : (if j = 0 then 1 else 0) <
      (splitProjectionProfile
        (projectionByBboxes (indices.map fun idx => boxes.getD idx default) axis size)
        mv mgap).length := by
    split <;> omega
  have hkj : (if j = 0 then 1 else 0) ≠ j := by
    split <;> omega
  set segs := splitProjectionProfile
    (projectionByBboxes (indices.map fun idx => boxes.getD idx default) axis size) mv mgap
    with hsegsdef
  set k := if j = 0 then 1 else 0 with hkdef
  have hpw : segs.Pairwise fun p q => p.2 < q.1 :=
    segs_pairwise_of_chain (fun p hp => (hfacts p hp).1) hchain
  have hpwget := List.pairwise_iff_get.1 hpw
  have hmemk : segs.get ⟨k, hklen⟩ ∈ segs := List.get_mem _ _ hklen
  obtain ⟨hk1, hk2, hk3, hk4⟩ := hfacts (segs.get ⟨k, hklen⟩) hmemk
  obtain ⟨hj1, hj2, hj3, hj4⟩ := hfacts seg hmem
  have hgetj : segs.get ⟨j, hj⟩ = seg := by
    rw [List.get_eq_getElem]
    exact hsegj
  rcases Nat.lt_or_ge j k with hjk | hge
  · -- `seg` lies left of segment `k`: its right end is an unoccupied gap
    -- pixel, yet every box covering the occupied pixel `segs[k].1` also
    -- covers it.
    have hrel : seg.2 < (segs.get ⟨k, hklen⟩).1 := by
      have := hpwget ⟨j, hj⟩ ⟨k, hklen⟩ hjk
      rw [hgetj] at this
      exact this
    have hglt : seg.2 < size := by omega
    have hnocc : ¬ occupiedAt
        (projectionByBboxes (indices.map fun idx => boxes.getD idx default) axis size)
        mv seg.2 := by
      rcases hj4 with h | h
      · exact absurd h (by omega)
      · exact h.2
    have hocco : mv < (indices.map fun idx => boxes.getD idx default).countP
        (fun b => decide (coversPixel b axis size (segs.get ⟨k, hklen⟩).1)) := by
      have h := hk3
      rw [projection_occ_iff _ axis size mv (t := (segs.get ⟨k, hklen⟩).1) (by omega)] at h
      exact h
    have hcount : (indices.map fun idx => boxes.getD idx default).countP
          (fun b => decide (coversPixel b axis size (segs.get ⟨k, hklen⟩).1)) ≤
        (indices.map fun idx => boxes.getD idx default).countP
          (fun b => decide (coversPixel b axis size seg.2)) := by
      apply List.countP_mono_left
      intro b hb hcovb
      simp only [decide_eq_true_eq] at hcovb ⊢
      exact covers_gap_of_covers_right hrel ((hallsub b hb).2) hcovb
    have hfin : mv < (indices.map fun idx => boxes.getD idx default).countP
        (fun b => decide (coversPixel b axis size seg.2)) :=
      lt_of_lt_of_le hocco (by exact_mod_cast hcount)
    rw [← projection_occ_iff _ axis size mv (t := seg.2) hglt] at hfin
    exact hnocc hfin
  · -- segment `k` lies left of `seg`: its right end is the unoccupied gap
    -- pixel.
    have hjk : k < j := by omega
    have hrel : (segs.get ⟨k, hklen⟩).2 < seg.1 := by
      have := hpwget ⟨k, hklen⟩ ⟨j, hj⟩ hjk
      rw [hgetj] at this
      exact this
    have hglt : (segs.get ⟨k, hklen⟩).2 < size := by omega
    have hnocc : ¬ occupiedAt
        (projectionByBboxes (indices.map fun idx => boxes.getD idx default) axis size)
        mv (segs.get ⟨k, hklen⟩).2 := by
      rcases hk4 with h | h
      · exact absurd h (by omega)
      · exact h.2
    have hocco : mv < (indices.map fun idx => boxes.getD idx default).countP
        (fun b => decide (coversPixel b axis size (segs.get ⟨k, hklen⟩).1)) := by
      have h := hk3
      rw [projection_occ_iff _ axis size mv (t := (segs.get ⟨k, hklen⟩).1) (by omega)] at h
      exact h
    have hcount : (indices.map fun idx => boxes.getD idx default).countP
          (fun b => decide (coversPixel b axis size (segs.get ⟨k, hklen⟩).1)) ≤
        (indices.map fun idx => boxes.getD idx default).countP
          (fun b => decide (coversPixel b axis size (segs.get ⟨k, hklen⟩).2)) := by
      apply List.countP_mono_left
      intro b hb hcovb
      simp only [decide_eq_true_eq] at hcovb ⊢
      refine covers_gap_of_covers_left hk1 hglt ?_ hcovb
      have hcge := (hallsub b hb).1
      have : ((segs.get ⟨k, hklen⟩).2 : ℚ) + 1 ≤ (seg.1 : ℚ) := by
        exact_mod_cast hrel
      linarith
    have hfin : mv < (indices.map fun idx => boxes.getD idx default).countP
        (fun b => decide (coversPixel b axis size (segs.get ⟨k, hklen⟩).2)) :=
      lt_of_lt_of_le hocco (by exact_mod_cast hcount)
    rw [← projection_occ_iff _ axis size mv (t := (segs.get ⟨k, hklen⟩).2) hglt] at hfin
    exact hnocc hfin

/-- Any fuel beyond the number of boxes in the cluster produces the same
result: the recursion terminates with depth at most the box count. -/
theorem recCut_fuel_stable (boxes : List LayoutBox) (pw ph : ℕ) (cfg : XYCutConfig)
    (a1 : ℕ) (leafCmp : ℕ → ℕ → Bool) :
    ∀ (n : ℕ) (indices : List ℕ), indices.length ≤ n →
      ∀ f f', indices.length < f → indices.length < f' →
        recCut boxes pw ph cfg a1 leafCmp f indices =
          recCut boxes pw ph cfg a1 leafCmp f' indices := by
  intro n
  induction n using Nat.strong_induction_on with
  | _ n ih =>
    intro indices hlen f f' hf hf'
    obtain ⟨f1, rfl⟩ : ∃ f1, f = f1 + 1 := ⟨f - 1, by omega⟩
    obtain ⟨f2, rfl⟩ : ∃ f2, f' = f2 + 1 := ⟨f' - 1, by omega⟩
    simp only [recCut]
    by_cases hb : indices.length ≤ 1
    · rw [if_pos hb, if_pos hb]
    · rw [if_neg hb, if_neg hb]
      by_cases h1 : 1 < (splitProjectionProfile
          (projectionByBboxes (indices.map fun idx => boxes.getD idx default) a1
            (axisSize pw ph a1))
          (cppTrunc cfg.minValueRatio) (minGapOf pw ph cfg a1)).length
      · rw [if_pos h1, if_pos h1]
        congr 1
        apply List.map_congr_left
        intro seg hseg
        have hlt := segGroup_length_lt boxes indices a1 (axisSize pw ph a1)
          (cppTrunc cfg.minValueRatio) (minGapOf pw ph cfg a1) seg h1 hseg
        exact ih _ (lt_of_lt_of_le hlt hlen) _ (le_refl _) f1 f2 (by omega) (by omega)
      · rw [if_neg h1, if_neg h1]
        by_cases h2 : 1 < (splitProjectionProfile
            (projectionByBboxes (indices.map fun idx => boxes.getD idx default) (1 - a1)
              (axisSize pw ph (1 - a1)))
            (cppTrunc cfg.minValueRatio) (minGapOf pw ph cfg (1 - a1))).length
        · rw [if_pos h2, if_pos h2]
          congr 1
          apply List.map_congr_left
          intro seg hseg
          have hlt := segGroup_length_lt boxes indices (1 - a1) (axisSize pw ph (1 - a1))
            (cppTrunc cfg.minValueRatio) (minGapOf pw ph cfg (1 - a1)) seg h2 hseg
          exact ih _ (lt_of_lt_of_le hlt hlen) _ (le_refl _) f1 f2 (by omega) (by omega)
        · rw [if_neg h2, if_neg h2]

/-- Everything the cut emits comes from its index set. -/
theorem recCut_subset (boxes : List LayoutBox) (pw ph : ℕ) (cfg : XYCutConfig)
    (a1 : ℕ) (leafCmp : ℕ → ℕ → Bool) :
    ∀ (fuel : ℕ) (indices : List ℕ) (x : ℕ),
      x ∈ recCut boxes pw ph cfg a1 leafCmp fuel indices → x ∈ indices := by
  intro fuel
  induction fuel with
  | zero =>
    intro indices x hx
    simp [recCut] at hx
  | succ f ih =>
    intro indices x hx
    simp only [recCut] at hx
    by_cases hb : indices.length ≤ 1
    · rw [if_pos hb] at hx
      exact hx
    · rw [if_neg hb] at hx
      have hflat : ∀ (axis : ℕ),
          x ∈ ((splitProjectionProfile
            (projectionByBboxes (indices.map fun idx => boxes.getD idx default) axis
              (axisSize pw ph axis))
            (cppTrunc cfg.minValueRatio) (minGapOf pw ph cfg axis)).map
              (fun seg => recCut boxes pw ph cfg a1 leafCmp f
                (segGroup boxes axis seg indices))).flatten →
          x ∈ indices := by
        intro axis hxf
        rw [List.mem_flatten] at hxf
        obtain ⟨l, hl, hxl⟩ := hxf
        rw [List.mem_map] at hl
        obtain ⟨seg, hseg, rfl⟩ := hl
        have hg := ih _ x hxl
        unfold segGroup at hg
        exact List.mem_of_mem_filter hg
      by_cases h1 : 1 < (splitProjectionProfile
          (projectionByBboxes (indices.map fun idx => boxes.getD idx default) a1
            (axisSize pw ph a1))
          (cppTrunc cfg.minValueRatio) (minGapOf pw ph cfg a1)).length
      · rw [if_pos h1] at hx
        exact hflat a1 hx
      · rw [if_neg h1] at hx
        by_cases h2 : 1 < (splitProjectionProfile
            (projectionByBboxes (indices.map fun idx => boxes.getD idx default) (1 - a1)
              (axisSize pw ph (1 - a1)))
            (cppTrunc cfg.minValueRatio) (minGapOf pw ph cfg (1 - a1))).length
        · rw [if_pos h2] at hx
          exact hflat (1 - a1) hx
        · rw [if_neg h2] at hx
          exact ((cppSort_perm leafCmp indices).mem_iff).1 hx

/-- The cut never duplicates an index: groups are filters of a
duplicate-free list by membership in pairwise-disjoint segments. -/
theorem recCut_nodup (boxes : List LayoutBox) (pw ph : ℕ) (cfg : XYCutConfig)
    (a1 : ℕ) (leafCmp : ℕ → ℕ → Bool) :
    ∀ (fuel : ℕ) (indices : List ℕ), indices.Nodup →
      (recCut boxes pw ph cfg a1 leafCmp fuel indices).Nodup := by
  intro fuel
  induction fuel with
  | zero =>
    intro indices _
    simp [recCut]
  | succ f ih =>
    intro indices h
    simp only [recCut]
    by_cases hb : indices.length ≤ 1
    · rw [if_pos hb]
      exact h
    · rw [if_neg hb]
      have hsplit : ∀ (axis : ℕ),
          ((splitProjectionProfile
            (projectionByBboxes (indices.map fun idx => boxes.getD idx default) axis
              (axisSize pw ph axis))
            (cppTrunc cfg.minValueRatio) (minGapOf pw ph cfg axis)).map
              (fun seg => recCut boxes pw ph cfg a1 leafCmp f
                (segGroup boxes axis seg indices))).flatten.Nodup := by
        intro axis
        obtain ⟨hfacts, hchain, _⟩ := splitProjectionProfile_segsOut
          (projectionByBboxes (indices.map fun idx => boxes.getD idx default) axis
            (axisSize pw ph axis))
          (cppTrunc cfg.minValueRatio) (minGapOf pw ph cfg axis)
        have hpw := segs_pairwise_of_chain (fun p hp => (hfacts p hp).1) hchain
        rw [List.nodup_flatten]
        constructor
        · intro l hl
          rw [List.mem_map] at hl
          obtain ⟨seg, hseg, rfl⟩ := hl
          exact ih _ (h.filter _)
        · rw [List.pairwise_map]
          refine hpw.imp ?_
          intro p q hpq
          intro x hxp hxq
          have hxp' := recCut_subset boxes pw ph cfg a1 leafCmp f _ x hxp
          have hxq' := recCut_subset boxes pw ph cfg a1 leafCmp f _ x hxq
          unfold segGroup at hxp' hxq'
          rw [List.mem_filter] at hxp' hxq'
          have h1 := of_decide_eq_true hxp'.2
          have h2 := of_decide_eq_true hxq'.2
          obtain ⟨_, hlt1⟩ := h1
          obtain ⟨hge2, _⟩ := h2
          have hcast : ((p.2 : ℚ)) ≤ (q.1 : ℚ) := by exact_mod_cast le_of_lt hpq
          linarith
      by_cases h1 : 1 < (splitProjectionProfile
          (projectionByBboxes (indices.map fun idx => boxes.getD idx default) a1
            (axisSize pw ph a1))
          (cppTrunc cfg.minValueRatio) (minGapOf pw ph cfg a1)).length
      · rw [if_pos h1]
        exact hsplit a1
      · rw [if_neg h1]
        by_cases h2 : 1 < (splitProjectionProfile
            (projectionByBboxes (indices.map fun idx => boxes.getD idx default) (1 - a1)
              (axisSize pw ph (1 - a1)))
            (cppTrunc cfg.minValueRatio) (minGapOf pw ph cfg (1 - a1))).length
        · rw [if_pos h2]
          exact hsplit (1 - a1)
        · rw [if_neg h2]
          exact ((cppSort_perm leafCmp indices).nodup_iff).2 h

/-- **C8**: whenever a call of either recursive cut splits its projection
into two or more segments, each group passed to a recursive call is
strictly smaller than the caller's index set, so the recursion
terminates: any fuel beyond the number of indices yields the same result
for `recursiveXYCut` and `recursiveYXCut`. -/
theorem claim_C8_terminationGroupsShrink :
    (∀ (boxes : List LayoutBox) (indices : List ℕ) (axis size : ℕ) (mv mgap : ℤ)
        (seg : ℕ × ℕ),
        1 < (splitProjectionProfile
            (projectionByBboxes (indices.map fun idx => boxes.getD idx default) axis size)
            mv mgap).length →
        seg ∈ splitProjectionProfile
            (projectionByBboxes (indices.map fun idx => boxes.getD idx default) axis size)
            mv mgap →
        (segGroup boxes axis seg indices).length < indices.length) ∧
    (∀ (boxes : List LayoutBox) (pw ph : ℕ) (cfg : XYCutConfig) (indices : List ℕ)
        (f f' : ℕ), indices.length < f → indices.length < f' →
        recursiveXYCut boxes f indices pw ph cfg = recursiveXYCut boxes f' indices pw ph cfg ∧
        recursiveYXCut boxes f indices pw ph cfg = recursiveYXCut boxes f' indices pw ph cfg) := by
  constructor
  · intro boxes indices axis size mv mgap seg h1 h2
    exact segGroup_length_lt boxes indices axis size mv mgap seg h1 h2
  · intro boxes pw ph cfg indices f f' hf hf'
    exact ⟨recCut_fuel_stable boxes pw ph cfg 0 (cmpXY boxes) indices.length indices
        (le_refl _) f f' hf hf',
      recCut_fuel_stable boxes pw ph cfg 1 (cmpYX boxes) indices.length indices
        (le_refl _) f f' hf hf'⟩

/-- Witness for C8 at a concrete input: fuel 4 and fuel 17 agree. -/
theorem claim_C8_witness :
    recursiveXYCut cexBoxesXY 4 [0, 1, 2] 100 100 cfgH =
      recursiveXYCut cexBoxesXY 17 [0, 1, 2] 100 100 cfgH :=
  ((claim_C8_terminationGroupsShrink).2 cexBoxesXY 100 100 cfgH [0, 1, 2] 4 17
    (by decide) (by decide)).1

/-- **C1 (amended)**: the output of `xycutPlusSort` never contains a
duplicate and every emitted index refers to an input box; but a box whose
center falls inside no segment of a split (possible for zero-area or
out-of-page boxes) is omitted, so the output is in general a
duplicate-free subsequence of `0..N-1`, not always a full permutation. -/
theorem claim_C1_outputDistinctInRange (boxes : List LayoutBox) (pw ph : ℕ)
    (cfg : XYCutConfig) :
    (xycutPlusSort boxes pw ph cfg).Nodup ∧
    ∀ i ∈ xycutPlusSort boxes pw ph cfg, i < boxes.length := by
  unfold xycutPlusSort
  by_cases hmt : boxes = []
  · rw [if_pos hmt]
    refine ⟨List.nodup_nil, ?_⟩
    intro i hi
    simp at hi
  · rw [if_neg hmt]
    show (if (if cfg.direction = TextDirection.AUTO then detectTextDirection boxes
          else cfg.direction) = TextDirection.HORIZONTAL then
        recursiveXYCut boxes (boxes.length + 1) (List.range boxes.length) pw ph cfg
      else recursiveYXCut boxes (boxes.length + 1) (List.range boxes.length) pw ph cfg).Nodup ∧
      ∀ i ∈ (if (if cfg.direction = TextDirection.AUTO then detectTextDirection boxes
          else cfg.direction) = TextDirection.HORIZONTAL then
        recursiveXYCut boxes (boxes.length + 1) (List.range boxes.length) pw ph cfg
      else recursiveYXCut boxes (boxes.length + 1) (List.range boxes.length) pw ph cfg),
        i < boxes.length
    by_cases hdir : (if cfg.direction = TextDirection.AUTO then detectTextDirection boxes
        else cfg.direction) = TextDirection.HORIZONTAL
    · rw [if_pos hdir]
      refine ⟨recCut_nodup boxes pw ph cfg 0 (cmpXY boxes) _ _ (List.nodup_range _), ?_⟩
      intro i hi
      have := recCut_subset boxes pw ph cfg 0 (cmpXY boxes) _ _ i hi
      exact List.mem_range.1 this
    · rw [if_neg hdir]
      refine ⟨recCut_nodup boxes pw ph cfg 1 (cmpYX boxes) _ _ (List.nodup_range _), ?_⟩
      intro i hi
      have := recCut_subset boxes pw ph cfg 1 (cmpYX boxes) _ _ i hi
      exact List.mem_range.1 this

/-- Counterexample to C1 as stated: box 0 lies entirely left of the page,
its center falls in no X-segment of the split, and the output `[1, 2]`
omits index 0 — not a permutation of `0..2`. -/
theorem claim_C1_counterexample :
    xycutPlusSort cexC1Boxes 1000 1000 cfgH = [1, 2] ∧
    ¬ (0 : ℕ) ∈ xycutPlusSort cexC1Boxes 1000 1000 cfgH ∧
    cexC1Boxes.length = 3 :=
  ⟨by decide, by decide, by decide⟩

/-- Witness for the amended C1 at the concrete input. -/
theorem claim_C1_witness : (1 : ℕ) < cexC1Boxes.length :=
  (claim_C1_outputDistinctInRange cexC1Boxes 1000 1000 cfgH).2 1 (by decide)

/-! ### Translation equivariance (C9) -/

theorem cppTrunc_intCast (m : ℤ) : cppTrunc (m : ℚ) = m := by
  unfold cppTrunc
  by_cases h : 0 ≤ (m : ℚ)
  · rw [if_pos h, Int.floor_intCast]
  · rw [if_neg h, Int.ceil_intCast]

theorem pixelStart_eq_lo (b : LayoutBox) (axis : ℕ) :
    pixelStart b axis = max 0 (cppTrunc (axisLo b axis)) := rfl

theorem pixelEnd_eq_hi (b : LayoutBox) (axis size : ℕ) :
    pixelEnd b axis size = min (size : ℤ) (cppTrunc (axisHi b axis)) := rfl

theorem axisLo_translate (dx dy : ℕ) (b : LayoutBox) (axis : ℕ) :
    axisLo (translateBox dx dy b) axis = axisLo b axis + (axisD dx dy axis : ℚ) := by
  unfold axisLo axisD translateBox
  by_cases h : axis = 0
  · rw [if_pos h, if_pos h, if_pos h]
    push_cast
    ring
  · rw [if_neg h, if_neg h, if_neg h]
    push_cast
    ring

theorem axisHi_translate (dx dy : ℕ) (b : LayoutBox) (axis : ℕ) :
    axisHi (translateBox dx dy b) axis = axisHi b axis + (axisD dx dy axis : ℚ) := by
  unfold axisHi axisD translateBox
  by_cases h : axis = 0
  · rw [if_pos h, if_pos h, if_pos h]
    push_cast
    ring
  · rw [if_neg h, if_neg h, if_neg h]
    push_cast
    ring

theorem axisCenter_translate (dx dy : ℕ) (b : LayoutBox) (axis : ℕ) :
    axisCenter (translateBox dx dy b) axis = axisCenter b axis + (axisD dx dy axis : ℚ) := by
  unfold axisCenter axisD translateBox LayoutBox.centerX LayoutBox.centerY
  by_cases h : axis = 0
  · rw [if_pos h, if_pos h, if_pos h]
    push_cast
    ring
  · rw [if_neg h, if_neg h, if_neg h]
    push_cast
    ring

theorem width_translate (dx dy : ℕ) (b : LayoutBox) :
    (translateBox dx dy b).width = b.width := by
  unfold translateBox LayoutBox.width
  push_cast
  ring

theorem height_translate (dx dy : ℕ) (b : LayoutBox) :
    (translateBox dx dy b).height = b.height := by
  unfold translateBox LayoutBox.height
  push_cast
  ring

theorem centerX_translate (dx dy : ℕ) (b : LayoutBox) :
    (translateBox dx dy b).centerX = b.centerX + (dx : ℚ) := by
  unfold translateBox LayoutBox.centerX
  push_cast
  ring

theorem centerY_translate (dx dy : ℕ) (b : LayoutBox) :
    (translateBox dx dy b).centerY = b.centerY + (dy : ℚ) := by
  unfold translateBox LayoutBox.centerY
  push_cast
  ring

/-- Pixel spans of an integer in-page box and of its translate. -/
theorem axisFits_spans {b : LayoutBox} {axis size : ℕ} (dx dy : ℕ)
    (hd : AxisFits b axis (axisD dx dy axis) size) :
    ∃ lo hi : ℤ, 0 ≤ lo ∧ lo < hi ∧ hi + (axisD dx dy axis : ℤ) ≤ (size : ℤ) ∧
      pixelStart b axis = lo ∧ pixelEnd b axis size = hi ∧
      pixelStart (translateBox dx dy b) axis = lo + (axisD dx dy axis : ℤ) ∧
      pixelEnd (translateBox dx dy b) axis size = hi + (axisD dx dy axis : ℤ) := by
  obtain ⟨lo, hi, hlo, hhi, h0, hlh, hsz⟩ := hd
  refine ⟨lo, hi, h0, hlh, hsz, ?_, ?_, ?_, ?_⟩
  · rw [pixelStart_eq_lo, hlo, cppTrunc_intCast]
    omega
  · rw [pixelEnd_eq_hi, hhi, cppTrunc_intCast]
    omega
  · rw [pixelStart_eq_lo, axisLo_translate, hlo]
    have : (lo : ℚ) + (axisD dx dy axis : ℚ) = ((lo + axisD dx dy axis : ℤ) : ℚ) := by
      push_cast
      ring
    rw [this, cppTrunc_intCast]
    omega
  · rw [pixelEnd_eq_hi, axisHi_translate, hhi]
    have : (hi : ℚ) + (axisD dx dy axis : ℚ) = ((hi + axisD dx dy axis : ℤ) : ℚ) := by
      push_cast
      ring
    rw [this, cppTrunc_intCast]
    omega

/-- A translated box covers pixel `t` exactly when the original covers
`t - d`. -/
theorem coversPixel_translate {b : LayoutBox} {axis size : ℕ} (dx dy : ℕ)
    (hd : AxisFits b axis (axisD dx dy axis) size) (t : ℕ) :
    coversPixel (translateBox dx dy b) axis size t ↔
      (axisD dx dy axis ≤ t ∧ coversPixel b axis size (t - axisD dx dy axis)) := by
  obtain ⟨lo, hi, h0, hlh, hsz, hs, he, hs', he'⟩ := axisFits_spans dx dy hd
  unfold coversPixel
  rw [hs, he, hs', he']
  omega

/-- An integer in-page box covers no pixel at or beyond `size - d`. -/
theorem coversPixel_lt_of_fits {b : LayoutBox} {axis size : ℕ} (dx dy : ℕ)
    (hd : AxisFits b axis (axisD dx dy axis) size) (t : ℕ)
    (hcov : coversPixel b axis size t) : (t : ℤ) + (axisD dx dy axis : ℤ) < (size : ℤ) := by
  obtain ⟨lo, hi, h0, hlh, hsz, hs, he, _, _⟩ := axisFits_spans dx dy hd
  unfold coversPixel at hcov
  rw [hs, he] at hcov
  omega

/-- `getD` through a translated box list, for in-range indices. -/
theorem getD_map_translateBox (boxes : List LayoutBox) (dx dy : ℤ) {idx : ℕ}
    (h : idx < boxes.length) :
    (boxes.map (translateBox dx dy)).getD idx default =
      translateBox dx dy (boxes.getD idx default) := by
  have hl : idx < (boxes.map (translateBox dx dy)).length := by
    rw [List.length_map]
    exact h
  rw [List.getD_eq_getElem _ _ hl, List.getD_eq_getElem _ _ h, List.getElem_map]

/-- Direction detection is unchanged by translation. -/
theorem detectTextDirection_translate (dx dy : ℕ) (boxes : List LayoutBox) :
    detectTextDirection (boxes.map (translateBox dx dy)) = detectTextDirection boxes := by
  unfold detectTextDirection
  have hmt : boxes.map (translateBox dx dy) = [] ↔ boxes = [] := by
    rw [List.map_eq_nil_iff]
  have hcountTot : (boxes.map (translateBox dx dy)).countP
      (fun b => decide (0 < b.width ∧ 0 < b.height)) =
      boxes.countP (fun b => decide (0 < b.width ∧ 0 < b.height)) := by
    rw [List.countP_map]
    apply List.countP_congr
    intro b _
    simp only [Function.comp_apply, width_translate, height_translate]
  have hcountW : (boxes.map (translateBox dx dy)).countP
      (fun b => decide (0 < b.width ∧ 0 < b.height ∧ b.height * (3 / 2) ≤ b.width)) =
      boxes.countP (fun b => decide (0 < b.width ∧ 0 < b.height ∧ b.height * (3 / 2) ≤ b.width)) := by
    rw [List.countP_map]
    apply List.countP_congr
    intro b _
    simp only [Function.comp_apply, width_translate, height_translate]
  by_cases h : boxes = []
  · rw [if_pos h, if_pos (hmt.2 h)]
  · rw [if_neg h, if_neg (fun hc => h (hmt.1 hc)), hcountTot, hcountW]

/-- When no segment is open, `segStart` and `gapCount` are dead state. -/
theorem splitGo_deadParams (mv mg : ℤ) :
    ∀ (l : List ℤ) (i : ℕ) (s s' g g' : ℕ) (segs : List (ℕ × ℕ)),
      splitGo mv mg l i false s g segs = splitGo mv mg l i false s' g' segs := by
  intro l
  induction l with
  | nil =>
    intro i s s' g g' segs
    simp [splitGo]
  | cons v rest ih =>
    intro i s s' g g' segs
    simp only [splitGo]
    by_cases hv : mv < v
    · rw [if_pos hv, if_pos hv]
      rw [if_neg Bool.false_ne_true, if_neg Bool.false_ne_true]
    · rw [if_neg hv, if_neg hv]
      rw [if_neg Bool.false_ne_true, if_neg Bool.false_ne_true]
      exact ih (i + 1) s s' g g' segs

/-- Trailing zeros with no open segment leave the output unchanged. -/
theorem splitGo_zeros_closed (mv mg : ℤ) (hmv : 0 ≤ mv) :
    ∀ (d : ℕ) (i s g : ℕ) (segs : List (ℕ × ℕ)),
      splitGo mv mg (List.replicate d 0) i false s g segs = segs := by
  intro d
  induction d with
  | zero =>
    intro i s g segs
    simp [splitGo]
  | succ d' ih =>
    intro i s g segs
    rw [List.replicate_succ]
    simp only [splitGo]
    rw [if_neg (show ¬ mv < 0 by omega), if_neg Bool.false_ne_true]
    exact ih (i + 1) s g segs

/-- Trailing zeros with an open segment: the segment closes at its last
occupied pixel once the zeros make up a full gap, and is flushed at the
very end otherwise. -/
theorem splitGo_zeros_open (mv mg : ℤ) (hmv : 0 ≤ mv) :
    ∀ (d : ℕ) (i s g : ℕ) (segs : List (ℕ × ℕ)),
      (0 < g → (g : ℤ) < mg) →
      splitGo mv mg (List.replicate d 0) i true s g segs =
        if mg ≤ (g : ℤ) + (d : ℤ) then segs ++ [(s, i - g)] else segs ++ [(s, i + d)] := by
  intro d
  induction d with
  | zero =>
    intro i s g segs hg
    show (if true = true then segs ++ [(s, i)] else segs) = _
    rw [if_pos rfl]
    split_ifs with hc
    · have hg0 : g = 0 := by
        by_contra hne
        have := hg (Nat.pos_of_ne_zero hne)
        omega
      subst hg0
      rw [Nat.sub_zero]
    · rw [Nat.add_zero]
  | succ d' ih =>
    intro i s g segs hg
    rw [List.replicate_succ]
    simp only [splitGo]
    rw [if_neg (show ¬ mv < 0 by omega), if_pos trivial]
    by_cases hcl : mg ≤ (g : ℤ) + 1
    · rw [if_pos hcl, splitGo_zeros_closed mv mg hmv]
      split_ifs with hc
      · rfl
      · exfalso
        omega
    · rw [if_neg hcl, ih (i + 1) s (g + 1) segs (fun _ => by omega)]
      split_ifs with h1 h2 h2
      · have he : i + 1 - (g + 1) = i - g := by omega
        rw [he]
      · exfalso
        omega
      · exfalso
        omega
      · have he : i + 1 + d' = i + (d' + 1) := by omega
        rw [he]

/-- Leading zeros only advance the scan position. -/
theorem splitGo_leadZeros (mv mg : ℤ) (hmv : 0 ≤ mv) (l : List ℤ) :
    ∀ (d i s g : ℕ) (segs : List (ℕ × ℕ)),
      splitGo mv mg (List.replicate d 0 ++ l) i false s g segs =
        splitGo mv mg l (i + d) false s g segs := by
  intro d
  induction d with
  | zero =>
    intro i s g segs
    rw [List.replicate_zero, List.nil_append, Nat.add_zero]
  | succ d' ih =>
    intro i s g segs
    rw [List.replicate_succ, List.cons_append]
    simp only [splitGo]
    rw [if_neg (show ¬ mv < 0 by omega), if_neg Bool.false_ne_true]
    rw [ih (i + 1) s g segs]
    have he : i + 1 + d' = i + (d' + 1) := by omega
    rw [he]

/-- Shifting the scan position and segment start shifts every emitted
segment. -/
theorem splitGo_shift (mv mg : ℤ) (d : ℕ) :
    ∀ (l : List ℤ) (i : ℕ) (inSeg : Bool) (s g : ℕ) (segs : List (ℕ × ℕ)),
      g ≤ i →
      splitGo mv mg l (i + d) inSeg (s + d) g (shiftSegs d segs) =
        shiftSegs d (splitGo mv mg l i inSeg s g segs) := by
  intro l
  induction l with
  | nil =>
    intro i inSeg s g segs hg
    simp only [splitGo]
    cases inSeg
    · rw [if_neg Bool.false_ne_true, if_neg Bool.false_ne_true]
    · rw [if_pos rfl, if_pos rfl]
      simp [shiftSegs]
  | cons v rest ih =>
    intro i inSeg s g segs hg
    simp only [splitGo]
    by_cases hv : mv < v
    · rw [if_pos hv, if_pos hv]
      have hstart : (if inSeg = true then s + d else i + d) =
          (if inSeg = true then s else i) + d := by
        cases inSeg <;> simp
      rw [hstart]
      have he : i + d + 1 = i + 1 + d := by omega
      rw [he]
      exact ih (i + 1) true _ 0 segs (by omega)
    · rw [if_neg hv, if_neg hv]
      cases inSeg
      · rw [if_neg Bool.false_ne_true, if_neg Bool.false_ne_true]
        have he : i + d + 1 = i + 1 + d := by omega
        rw [he]
        exact ih (i + 1) false s g segs (by omega)
      · rw [if_pos rfl, if_pos rfl]
        by_cases hcl : mg ≤ (g : ℤ) + 1
        · rw [if_pos hcl, if_pos hcl]
          have he : i + d - g = i - g + d := by omega
          have he2 : i + d + 1 = i + 1 + d := by omega
          rw [he, he2]
          have hs : shiftSegs d segs ++ [(s + d, i - g + d)] =
              shiftSegs d (segs ++ [(s, i - g)]) := by
            simp [shiftSegs]
          rw [hs]
          exact ih (i + 1) false s 0 _ (by omega)
        · rw [if_neg hcl, if_neg hcl]
          have he : i + d + 1 = i + 1 + d := by omega
          rw [he]
          exact ih (i + 1) true s (g + 1) segs (by omega)

/-- Appending trailing zeros changes at most the end position of the final
segment. -/
theorem splitGo_trailZeros (mv mg : ℤ) (hmv : 0 ≤ mv) (d : ℕ) :
    ∀ (l : List ℤ) (i : ℕ) (st : Bool) (s g : ℕ) (segs : List (ℕ × ℕ)),
      (st = true → 0 < g → (g : ℤ) < mg) →
      ∃ (com tail tail' : List (ℕ × ℕ)),
        splitGo mv mg l i st s g segs = com ++ tail ∧
        splitGo mv mg (l ++ List.replicate d 0) i st s g segs = com ++ tail' ∧
        ((tail = [] ∧ tail' = []) ∨
          ∃ s0 e0 e1, tail = [(s0, e0)] ∧ tail' = [(s0, e1)]) := by
  intro l
  induction l with
  | nil =>
    intro i st s g segs hg
    rw [List.nil_append]
    cases st
    · refine ⟨segs, [], [], ?_, ?_, Or.inl ⟨rfl, rfl⟩⟩
      · simp [splitGo]
      · rw [splitGo_zeros_closed mv mg hmv, List.append_nil]
    · refine ⟨segs, [(s, i)],
        if mg ≤ (g : ℤ) + (d : ℤ) then [(s, i - g)] else [(s, i + d)], ?_, ?_, ?_⟩
      · simp [splitGo]
      · rw [splitGo_zeros_open mv mg hmv d i s g segs (hg rfl)]
        split_ifs with hc
        · rfl
        · rfl
      · refine Or.inr ⟨s, i, if mg ≤ (g : ℤ) + (d : ℤ) then i - g else i + d, rfl, ?_⟩
        split_ifs with hc
        · rfl
        · rfl
  | cons v rest ih =>
    intro i st s g segs hg
    rw [List.cons_append]
    simp only [splitGo]
    by_cases hv : mv < v
    · rw [if_pos hv, if_pos hv]
      exact ih (i + 1) true _ 0 segs (fun _ h0 => absurd h0 (lt_irrefl 0))
    · rw [if_neg hv, if_neg hv]
      cases st
      · rw [if_neg Bool.false_ne_true, if_neg Bool.false_ne_true]
        exact ih (i + 1) false s g segs (fun h => absurd h Bool.false_ne_true)
      · rw [if_pos rfl, if_pos rfl]
        by_cases hcl : mg ≤ (g : ℤ) + 1
        · rw [if_pos hcl, if_pos hcl]
          exact ih (i + 1) false s 0 _ (fun h => absurd h Bool.false_ne_true)
        · rw [if_neg hcl, if_neg hcl]
          exact ih (i + 1) true s (g + 1) segs (fun _ _ => by omega)

/-- The offset component vanishes for the zero translation. -/
theorem axisD_zero (axis : ℕ) : axisD 0 0 axis = 0 := by
  unfold axisD
  split_ifs <;> rfl

/-- `inSegment` on an explicit pair. -/
theorem inSegment_mk (s e : ℕ) (c : ℚ) :
    inSegment (s, e) c ↔ ((s : ℚ) ≤ c ∧ c < (e : ℚ)) := Iff.rfl

/-- A box fitting with room for a shift of `d` also fits with no shift. -/
theorem axisFits_mono_zero {b : LayoutBox} {axis d size : ℕ}
    (h : AxisFits b axis d size) : AxisFits b axis 0 size := by
  obtain ⟨lo, hi, hloEq, hhiEq, h0, hlh, hsz⟩ := h
  exact ⟨lo, hi, hloEq, hhiEq, h0, hlh, by omega⟩

/-- The shift amount never exceeds the page extent on a fitting box's axis. -/
theorem axisFits_d_le {b : LayoutBox} {axis d size : ℕ}
    (h : AxisFits b axis d size) : d ≤ size := by
  obtain ⟨lo, hi, _, _, h0, hlh, hsz⟩ := h
  omega

/-- The translate of a fitting box fits with no further shift. -/
theorem axisFits_translate {b : LayoutBox} {axis size : ℕ} (dx dy : ℕ)
    (h : AxisFits b axis (axisD dx dy axis) size) :
    AxisFits (translateBox dx dy b) axis 0 size := by
  obtain ⟨lo, hi, hloEq, hhiEq, h0, hlh, hsz⟩ := h
  refine ⟨lo + (axisD dx dy axis : ℤ), hi + (axisD dx dy axis : ℤ), ?_, ?_,
    by omega, by omega, by push_cast; omega⟩
  · rw [axisLo_translate, hloEq]
    push_cast
    ring
  · rw [axisHi_translate, hhiEq]
    push_cast
    ring

/-- An in-page integer box fits on either axis of the page. -/
theorem intBoxFits_axis {b : LayoutBox} {dx dy pw ph : ℕ}
    (h : IntBoxFits b dx dy pw ph) (axis : ℕ) (haxis : axis = 0 ∨ axis = 1) :
    AxisFits b axis (axisD dx dy axis) (axisSize pw ph axis) := by
  rcases haxis with h0 | h1
  · subst h0
    exact h.1
  · subst h1
    exact h.2

/-- The projection of in-page boxes that leave `d` pixels of room ends in
`d` zeros. -/
theorem projection_trail_zeros (subBoxes : List LayoutBox) (dx dy axis size : ℕ)
    (hfits : ∀ b ∈ subBoxes, AxisFits b axis (axisD dx dy axis) size)
    (hdle : axisD dx dy axis ≤ size) :
    projectionByBboxes subBoxes axis size =
      (projectionByBboxes subBoxes axis size).take (size - axisD dx dy axis) ++
        List.replicate (axisD dx dy axis) 0 := by
  apply List.ext_getElem
  · rw [projectionByBboxes_length, List.length_append, List.length_take,
      List.length_replicate, projectionByBboxes_length]
    omega
  · intro t h1 h2
    have ht : t < size := by
      have := h1
      rwa [projectionByBboxes_length] at this
    by_cases hlt : t < size - axisD dx dy axis
    · rw [List.getElem_append_left
        (by rw [List.length_take, projectionByBboxes_length]; omega)]
      rw [List.getElem_take]
    · rw [List.getElem_append_right
        (by rw [List.length_take, projectionByBboxes_length]; omega)]
      rw [List.getElem_replicate]
      have hcnt : subBoxes.countP (fun b => decide (coversPixel b axis size t)) = 0 := by
        rw [List.countP_eq_zero]
        intro b hb
        simp only [decide_eq_true_eq]
        intro hcov
        have := coversPixel_lt_of_fits dx dy (hfits b hb) t hcov
        omega
      have hg : (projectionByBboxes subBoxes axis size).getD t 0 = 0 := by
        rw [projectionByBboxes_getD subBoxes axis size ht, hcnt]
        rfl
      rwa [List.getD_eq_getElem _ _ h1] at hg

/-- The projection of the translated boxes is the original projection's
occupied prefix pushed right by `d` zeros. -/
theorem projection_translate_decomp (subBoxes : List LayoutBox) (dx dy axis size : ℕ)
    (hfits : ∀ b ∈ subBoxes, AxisFits b axis (axisD dx dy axis) size)
    (hdle : axisD dx dy axis ≤ size) :
    projectionByBboxes (subBoxes.map (translateBox dx dy)) axis size =
      List.replicate (axisD dx dy axis) 0 ++
        (projectionByBboxes subBoxes axis size).take (size - axisD dx dy axis) := by
  apply List.ext_getElem
  · rw [projectionByBboxes_length, List.length_append, List.length_take,
      List.length_replicate, projectionByBboxes_length]
    omega
  · intro t h1 h2
    have ht : t < size := by
      have := h1
      rwa [projectionByBboxes_length] at this
    by_cases hlt : t < axisD dx dy axis
    · rw [List.getElem_append_left (by rw [List.length_replicate]; omega)]
      rw [List.getElem_replicate]
      have hcnt : (subBoxes.map (translateBox dx dy)).countP
          (fun b => decide (coversPixel b axis size t)) = 0 := by
        rw [List.countP_eq_zero]
        intro b' hb'
        rw [List.mem_map] at hb'
        obtain ⟨b, hb, rfl⟩ := hb'
        simp only [decide_eq_true_eq]
        intro hcov
        have := (coversPixel_translate dx dy (hfits b hb) t).1 hcov
        omega
      have hg : (projectionByBboxes (subBoxes.map (translateBox dx dy)) axis size).getD
          t 0 = 0 := by
        rw [projectionByBboxes_getD _ axis size ht, hcnt]
        rfl
      rwa [List.getD_eq_getElem _ _ h1] at hg
    · rw [List.getElem_append_right (by rw [List.length_replicate]; omega)]
      simp only [List.length_replicate]
      rw [List.getElem_take]
      have hTd : t - axisD dx dy axis < size := by omega
      have hlenP : t - axisD dx dy axis <
          (projectionByBboxes subBoxes axis size).length := by
        rw [projectionByBboxes_length]
        exact hTd
      have ecnt : (subBoxes.map (translateBox dx dy)).countP
          (fun b => decide (coversPixel b axis size t)) =
          subBoxes.countP
            (fun b => decide (coversPixel b axis size (t - axisD dx dy axis))) := by
        rw [List.countP_map]
        apply List.countP_congr
        intro b hb
        simp only [Function.comp_apply, decide_eq_true_eq]
        rw [coversPixel_translate dx dy (hfits b hb) t]
        constructor
        · rintro ⟨_, h⟩
          exact h
        · intro h
          exact ⟨by omega, h⟩
      have hchain : (projectionByBboxes (subBoxes.map (translateBox dx dy))
            axis size).getD t 0 =
          (projectionByBboxes subBoxes axis size).getD (t - axisD dx dy axis) 0 := by
        rw [projectionByBboxes_getD _ axis size ht,
          projectionByBboxes_getD subBoxes axis size hTd, ecnt]
      rw [List.getD_eq_getElem _ _ h1] at hchain
      rw [List.getD_eq_getElem _ _ hlenP] at hchain
      exact hchain

/-- Core correspondence: running the scan on a profile with `d` trailing
zeros versus the same profile pushed right by `d` leading zeros yields the
same segments — shifted by `d` — except possibly for the end position of
the final segment, which shares its start on both sides. -/
theorem splitPP_trail_vs_lead (M : List ℤ) (d : ℕ) (mg : ℤ) :
    ∃ com tail tail' : List (ℕ × ℕ),
      splitProjectionProfile (M ++ List.replicate d 0) 0 mg = com ++ tail' ∧
      splitProjectionProfile (List.replicate d 0 ++ M) 0 mg =
        shiftSegs d com ++ shiftSegs d tail ∧
      ((tail = [] ∧ tail' = []) ∨ ∃ s0 e0 e1, tail = [(s0, e0)] ∧ tail' = [(s0, e1)]) := by
  obtain ⟨com, tail, tail', h1, h2, h3⟩ :=
    splitGo_trailZeros 0 mg (le_refl 0) d M 0 false 0 0 []
      (fun h => absurd h Bool.false_ne_true)
  refine ⟨com, tail, tail', ?_, ?_, h3⟩
  · exact h2
  · show splitGo 0 mg (List.replicate d 0 ++ M) 0 false 0 0 [] = _
    rw [splitGo_leadZeros 0 mg (le_refl 0) M d 0 0 0 [], Nat.zero_add,
      splitGo_deadParams 0 mg M d 0 d 0 0 []]
    have hs := splitGo_shift 0 mg d M 0 false 0 0 [] (le_refl 0)
    rw [Nat.zero_add] at hs
    rw [show shiftSegs d ([] : List (ℕ × ℕ)) = [] from rfl] at hs
    rw [hs, h1]
    simp [shiftSegs]

/-- Segment correspondence between the runs of the original and the
translated boxes (at `minValue = 0`). -/
theorem segs_corr (dx dy : ℕ) (subBoxes : List LayoutBox) (axis size : ℕ) (mg : ℤ)
    (hfits : ∀ b ∈ subBoxes, AxisFits b axis (axisD dx dy axis) size)
    (hdle : axisD dx dy axis ≤ size) :
    ∃ com tail tail' : List (ℕ × ℕ),
      splitProjectionProfile (projectionByBboxes subBoxes axis size) 0 mg =
        com ++ tail' ∧
      splitProjectionProfile
          (projectionByBboxes (subBoxes.map (translateBox dx dy)) axis size) 0 mg =
        shiftSegs (axisD dx dy axis) com ++ shiftSegs (axisD dx dy axis) tail ∧
      ((tail = [] ∧ tail' = []) ∨ ∃ s0 e0 e1, tail = [(s0, e0)] ∧ tail' = [(s0, e1)]) := by
  obtain ⟨com, tail, tail', h1, h2, h3⟩ :=
    splitPP_trail_vs_lead
      ((projectionByBboxes subBoxes axis size).take (size - axisD dx dy axis))
      (axisD dx dy axis) mg
  refine ⟨com, tail, tail', ?_, ?_, h3⟩
  · rw [projection_trail_zeros subBoxes dx dy axis size hfits hdle]
    exact h1
  · rw [projection_translate_decomp subBoxes dx dy axis size hfits hdle]
    exact h2

/-- The axis center of every in-page integer box lies strictly below the
end of the last segment of the split. -/
theorem center_lt_lastEnd (subBoxes : List LayoutBox) (axis size : ℕ) (mg : ℤ)
    {b : LayoutBox} (hb : b ∈ subBoxes) (hfit : AxisFits b axis 0 size)
    {com : List (ℕ × ℕ)} {lastSeg : ℕ × ℕ}
    (hsegs : splitProjectionProfile (projectionByBboxes subBoxes axis size) 0 mg =
      com ++ [lastSeg]) :
    axisCenter b axis < (lastSeg.2 : ℚ) := by
  obtain ⟨lo, hi, hloEq, hhiEq, h0, hlh, hsz⟩ := hfit
  have hsP : pixelStart b axis = lo := by
    rw [pixelStart_eq_lo, hloEq, cppTrunc_intCast]
    omega
  have heP : pixelEnd b axis size = hi := by
    rw [pixelEnd_eq_hi, hhiEq, cppTrunc_intCast]
    omega
  have hcov : coversPixel b axis size (hi - 1).toNat := by
    unfold coversPixel
    rw [hsP, heP]
    omega
  have hplt : (hi - 1).toNat < size := by omega
  have hocc : occupiedAt (projectionByBboxes subBoxes axis size) 0 (hi - 1).toNat := by
    rw [projection_occ_iff subBoxes axis size 0 hplt]
    have hpos : 0 < subBoxes.countP
        (fun bb => decide (coversPixel bb axis size (hi - 1).toNat)) := by
      rw [List.countP_pos_iff]
      exact ⟨b, hb, by simp only [decide_eq_true_eq]; exact hcov⟩
    exact_mod_cast hpos
  obtain ⟨hfacts, hchain, hcover⟩ :=
    splitProjectionProfile_segsOut (projectionByBboxes subBoxes axis size) 0 mg
  have hpw := segs_pairwise_of_chain (fun q hq => (hfacts q hq).1) hchain
  rw [hsegs] at hfacts hcover hpw
  have hlen : (hi - 1).toNat < (projectionByBboxes subBoxes axis size).length := by
    rw [projectionByBboxes_length]
    exact hplt
  obtain ⟨p, hpmem, hp1, hp2⟩ := hcover _ hlen hocc
  have hple : p.2 ≤ lastSeg.2 := by
    rcases List.mem_append.1 hpmem with hcom | hlast
    · rw [List.pairwise_append] at hpw
      have hlt := hpw.2.2 p hcom lastSeg (List.mem_singleton_self _)
      have hlast2 : lastSeg ∈ com ++ [lastSeg] :=
        List.mem_append.2 (Or.inr (List.mem_singleton_self _))
      have := (hfacts lastSeg hlast2).1
      omega
    · rw [List.mem_singleton] at hlast
      rw [hlast]
  have hc : axisCenter b axis < (hi : ℚ) := by
    have hcval : axisCenter b axis = (axisLo b axis + axisHi b axis) / 2 :=
      axisCenter_eq b axis
    rw [hcval, hloEq, hhiEq]
    have hlh' : (lo : ℚ) < (hi : ℚ) := by exact_mod_cast hlh
    linarith
  have hple2 : hi ≤ (lastSeg.2 : ℤ) := by omega
  exact lt_of_lt_of_le hc (by exact_mod_cast hple2)

/-- A group taken in the exactly shifted segment is the original group. -/
theorem segGroup_translate_exact (boxes : List LayoutBox) (dx dy axis : ℕ)
    (indices : List ℕ) (hidx : ∀ i ∈ indices, i < boxes.length) (seg : ℕ × ℕ) :
    segGroup (boxes.map (translateBox dx dy)) axis
        (seg.1 + axisD dx dy axis, seg.2 + axisD dx dy axis) indices =
      segGroup boxes axis seg indices := by
  unfold segGroup
  apply List.filter_congr
  intro idx hi
  rw [decide_eq_decide, getD_map_translateBox boxes _ _ (hidx idx hi),
    axisCenter_translate, inSegment_mk]
  unfold inSegment
  constructor
  · rintro ⟨h1, h2⟩
    constructor
    · push_cast at h1
      linarith
    · push_cast at h2
      linarith
  · rintro ⟨h1, h2⟩
    constructor
    · push_cast
      linarith
    · push_cast
      linarith

/-- A group taken in the shifted final segment equals the group in the
original final segment, provided every center lies below both segment
ends. -/
theorem segGroup_tail_eq (boxes : List LayoutBox) (dx dy axis : ℕ)
    (indices : List ℕ) (hidx : ∀ i ∈ indices, i < boxes.length) (s0 e0 e1 : ℕ)
    (hub1 : ∀ idx ∈ indices, axisCenter (boxes.getD idx default) axis < (e1 : ℚ))
    (hub2 : ∀ idx ∈ indices, axisCenter (boxes.getD idx default) axis < (e0 : ℚ)) :
    segGroup (boxes.map (translateBox dx dy)) axis
        (s0 + axisD dx dy axis, e0 + axisD dx dy axis) indices =
      segGroup boxes axis (s0, e1) indices := by
  unfold segGroup
  apply List.filter_congr
  intro idx hi
  rw [decide_eq_decide, getD_map_translateBox boxes _ _ (hidx idx hi),
    axisCenter_translate, inSegment_mk, inSegment_mk]
  constructor
  · rintro ⟨h1, _⟩
    refine ⟨?_, hub1 idx hi⟩
    push_cast at h1
    linarith
  · rintro ⟨h1, _⟩
    constructor
    · push_cast
      linarith
    · have := hub2 idx hi
      push_cast
      linarith

/-- Insertion is unchanged when the two comparators agree on the affected
elements. -/
theorem insertRev_congr (cmp cmp' : ℕ → ℕ → Bool) (P : ℕ → Prop)
    (h : ∀ a b, P a → P b → cmp' a b = cmp a b) :
    ∀ (l : List ℕ) (x : ℕ), (∀ y ∈ l, P y) → P x →
      insertRev cmp' x l = insertRev cmp x l := by
  intro l
  induction l with
  | nil =>
    intro x _ _
    rfl
  | cons y ys ih =>
    intro x hl hx
    unfold insertRev
    rw [h x y hx (hl y (List.mem_cons_self y ys))]
    by_cases hc : cmp x y = true
    · rw [if_pos hc, if_pos hc,
        ih x (fun z hz => hl z (List.mem_cons_of_mem _ hz)) hx]
    · rw [if_neg hc, if_neg hc]

/-- `std::sort` is unchanged when the two comparators agree on the sorted
elements. -/
theorem cppSort_congr (cmp cmp' : ℕ → ℕ → Bool) (P : ℕ → Prop)
    (h : ∀ a b, P a → P b → cmp' a b = cmp a b) (l : List ℕ)
    (hl : ∀ y ∈ l, P y) : cppSort cmp' l = cppSort cmp l := by
  unfold cppSort
  have aux : ∀ (l' : List ℕ) (acc : List ℕ), (∀ y ∈ l', P y) → (∀ y ∈ acc, P y) →
      l'.foldl (fun acc x => insertRev cmp' x acc) acc =
        l'.foldl (fun acc x => insertRev cmp x acc) acc := by
    intro l'
    induction l' with
    | nil =>
      intro acc _ _
      rfl
    | cons x xs ih =>
      intro acc hl' hacc
      rw [List.foldl_cons, List.foldl_cons,
        insertRev_congr cmp cmp' P h acc x hacc (hl' x (List.mem_cons_self x xs))]
      apply ih
      · intro y hy
        exact hl' y (List.mem_cons_of_mem _ hy)
      · intro y hy
        have := (insertRev_perm cmp x acc).mem_iff.1 hy
        rcases List.mem_cons.1 this with rfl | hmem
        · exact hl' y (List.mem_cons_self y xs)
        · exact hacc y hmem
  rw [aux l [] hl (fun y hy => absurd hy (List.not_mem_nil y))]

/-- The horizontal leaf comparator is translation invariant. -/
theorem cmpXY_translate (boxes : List LayoutBox) (dx dy : ℕ) (a b : ℕ)
    (ha : a < boxes.length) (hb : b < boxes.length) :
    cmpXY (boxes.map (translateBox dx dy)) a b = cmpXY boxes a b := by
  simp only [cmpXY]
  rw [getD_map_translateBox boxes _ _ ha, getD_map_translateBox boxes _ _ hb,
    centerY_translate, centerY_translate, height_translate, height_translate,
    centerX_translate, centerX_translate]
  have h1 : (boxes.getD a default).centerY + (dy : ℚ) -
      ((boxes.getD b default).centerY + (dy : ℚ)) =
      (boxes.getD a default).centerY - (boxes.getD b default).centerY := by
    ring
  rw [h1]
  simp only [add_lt_add_iff_right]

/-- The vertical leaf comparator is translation invariant. -/
theorem cmpYX_translate (boxes : List LayoutBox) (dx dy : ℕ) (a b : ℕ)
    (ha : a < boxes.length) (hb : b < boxes.length) :
    cmpYX (boxes.map (translateBox dx dy)) a b = cmpYX boxes a b := by
  simp only [cmpYX]
  rw [getD_map_translateBox boxes _ _ ha, getD_map_translateBox boxes _ _ hb,
    centerX_translate, centerX_translate, width_translate, width_translate,
    centerY_translate, centerY_translate]
  have h1 : (boxes.getD a default).centerX + (dx : ℚ) -
      ((boxes.getD b default).centerX + (dx : ℚ)) =
      (boxes.getD a default).centerX - (boxes.getD b default).centerX := by
    ring
  rw [h1]
  simp only [add_lt_add_iff_right]

/-- One splitting level of the cut: on either axis, the translated run
produces segment lists of the same length, and recursing into the groups
yields the same output (given the inner recursion is already known to be
translation invariant at fuel `f`). -/
theorem recCut_axis_block (boxes : List LayoutBox) (dx dy pw ph : ℕ)
    (cfg : XYCutConfig) (a1 : ℕ) (cmp cmp' : ℕ → ℕ → Bool) (axis : ℕ)
    (haxis : axis = 0 ∨ axis = 1) (f : ℕ) (indices : List ℕ)
    (hidx : ∀ i ∈ indices, i < boxes.length)
    (hne : indices ≠ [])
    (hfits : ∀ b ∈ boxes, IntBoxFits b dx dy pw ph)
    (ih : ∀ ind : List ℕ, (∀ i ∈ ind, i < boxes.length) →
      recCut (boxes.map (translateBox dx dy)) pw ph cfg a1 cmp' f ind =
        recCut boxes pw ph cfg a1 cmp f ind) :
    (splitProjectionProfile (projectionByBboxes
        (indices.map fun idx => (boxes.map (translateBox dx dy)).getD idx default) axis
        (axisSize pw ph axis)) 0 (minGapOf pw ph cfg axis)).length =
      (splitProjectionProfile (projectionByBboxes
        (indices.map fun idx => boxes.getD idx default) axis
        (axisSize pw ph axis)) 0 (minGapOf pw ph cfg axis)).length ∧
    ((splitProjectionProfile (projectionByBboxes
        (indices.map fun idx => (boxes.map (translateBox dx dy)).getD idx default) axis
        (axisSize pw ph axis)) 0 (minGapOf pw ph cfg axis)).map
        (fun seg => recCut (boxes.map (translateBox dx dy)) pw ph cfg a1 cmp' f
          (segGroup (boxes.map (translateBox dx dy)) axis seg indices))).flatten =
      ((splitProjectionProfile (projectionByBboxes
        (indices.map fun idx => boxes.getD idx default) axis
        (axisSize pw ph axis)) 0 (minGapOf pw ph cfg axis)).map
        (fun seg => recCut boxes pw ph cfg a1 cmp f
          (segGroup boxes axis seg indices))).flatten := by
  have hsub : (indices.map fun idx => (boxes.map (translateBox dx dy)).getD idx default) =
      (indices.map fun idx => boxes.getD idx default).map (translateBox dx dy) := by
    rw [List.map_map]
    apply List.map_congr_left
    intro idx hi
    simp only [Function.comp_apply]
    exact getD_map_translateBox boxes _ _ (hidx idx hi)
  have hfitsA : ∀ b ∈ (indices.map fun idx => boxes.getD idx default),
      AxisFits b axis (axisD dx dy axis) (axisSize pw ph axis) := by
    intro b hbm
    rw [List.mem_map] at hbm
    obtain ⟨idx, hidxm, rfl⟩ := hbm
    have hbx : boxes.getD idx default ∈ boxes := by
      rw [List.getD_eq_getElem _ _ (hidx idx hidxm)]
      exact List.getElem_mem _
    exact intBoxFits_axis (hfits _ hbx) axis haxis
  have hne' : (indices.map fun idx => boxes.getD idx default) ≠ [] := by
    intro hcon
    rw [List.map_eq_nil_iff] at hcon
    exact hne hcon
  obtain ⟨b0, hb0⟩ := List.exists_mem_of_ne_nil _ hne'
  have hdle : axisD dx dy axis ≤ axisSize pw ph axis := axisFits_d_le (hfitsA b0 hb0)
  rw [hsub]
  obtain ⟨com, tail, tail', hOrig, hTr, hShape⟩ :=
    segs_corr dx dy (indices.map fun idx => boxes.getD idx default) axis
      (axisSize pw ph axis) (minGapOf pw ph cfg axis) hfitsA hdle
  rw [hOrig, hTr]
  have hcomMap : (shiftSegs (axisD dx dy axis) com).map
      (fun seg => recCut (boxes.map (translateBox dx dy)) pw ph cfg a1 cmp' f
        (segGroup (boxes.map (translateBox dx dy)) axis seg indices)) =
      com.map (fun seg => recCut boxes pw ph cfg a1 cmp f
        (segGroup boxes axis seg indices)) := by
    unfold shiftSegs
    rw [List.map_map]
    apply List.map_congr_left
    intro seg hseg
    simp only [Function.comp_apply]
    rw [segGroup_translate_exact boxes dx dy axis indices hidx seg]
    exact ih _ (fun i hig => hidx i (List.mem_of_mem_filter hig))
  have htailMap : (shiftSegs (axisD dx dy axis) tail).map
      (fun seg => recCut (boxes.map (translateBox dx dy)) pw ph cfg a1 cmp' f
        (segGroup (boxes.map (translateBox dx dy)) axis seg indices)) =
      tail'.map (fun seg => recCut boxes pw ph cfg a1 cmp f
        (segGroup boxes axis seg indices)) := by
    rcases hShape with ⟨ht1, ht2⟩ | ⟨s0, e0, e1, ht1, ht2⟩
    · subst ht1
      subst ht2
      rfl
    · subst ht1
      subst ht2
      have hub1 : ∀ idx ∈ indices,
          axisCenter (boxes.getD idx default) axis < (e1 : ℚ) := by
        intro idx hi
        have hmem : boxes.getD idx default ∈
            (indices.map fun idx => boxes.getD idx default) :=
          List.mem_map_of_mem _ hi
        exact center_lt_lastEnd _ axis (axisSize pw ph axis) (minGapOf pw ph cfg axis)
          hmem (axisFits_mono_zero (hfitsA _ hmem)) hOrig
      have hub2 : ∀ idx ∈ indices,
          axisCenter (boxes.getD idx default) axis < (e0 : ℚ) := by
        intro idx hi
        have hmem : boxes.getD idx default ∈
            (indices.map fun idx => boxes.getD idx default) :=
          List.mem_map_of_mem _ hi
        have hmem2 : translateBox dx dy (boxes.getD idx default) ∈
            (indices.map fun idx => boxes.getD idx default).map (translateBox dx dy) :=
          List.mem_map_of_mem _ hmem
        have hTr2 : splitProjectionProfile (projectionByBboxes
            ((indices.map fun idx => boxes.getD idx default).map (translateBox dx dy))
            axis (axisSize pw ph axis)) 0 (minGapOf pw ph cfg axis) =
            shiftSegs (axisD dx dy axis) com ++
              [(s0 + axisD dx dy axis, e0 + axisD dx dy axis)] := by
          rw [hTr]
          rfl
        have hcl := center_lt_lastEnd _ axis (axisSize pw ph axis)
          (minGapOf pw ph cfg axis) hmem2 (axisFits_translate dx dy (hfitsA _ hmem)) hTr2
        rw [axisCenter_translate] at hcl
        push_cast at hcl
        linarith
      show [recCut (boxes.map (translateBox dx dy)) pw ph cfg a1 cmp' f
          (segGroup (boxes.map (translateBox dx dy)) axis
            (s0 + axisD dx dy axis, e0 + axisD dx dy axis) indices)] =
        [recCut boxes pw ph cfg a1 cmp f (segGroup boxes axis (s0, e1) indices)]
      rw [segGroup_tail_eq boxes dx dy axis indices hidx s0 e0 e1 hub1 hub2,
        ih (segGroup boxes axis (s0, e1) indices)
          (fun i hig => hidx i (List.mem_of_mem_filter hig))]
  constructor
  · rcases hShape with ⟨ht1, ht2⟩ | ⟨s0, e0, e1, ht1, ht2⟩ <;> subst ht1 <;> subst ht2 <;>
      simp [shiftSegs]
  · rw [List.map_append, List.map_append, hcomMap, htailMap]

/-- Translation invariance of the recursive cut for in-page integer boxes
with room for the offset, at `minValue = 0`. -/
theorem recCut_translate (boxes : List LayoutBox) (dx dy pw ph : ℕ)
    (cfg : XYCutConfig) (a1 : ℕ) (ha1 : a1 = 0 ∨ a1 = 1)
    (cmp cmp' : ℕ → ℕ → Bool)
    (hcmp : ∀ a b, a < boxes.length → b < boxes.length → cmp' a b = cmp a b)
    (hmv : cppTrunc cfg.minValueRatio = 0)
    (hfits : ∀ b ∈ boxes, IntBoxFits b dx dy pw ph) :
    ∀ (fuel : ℕ) (indices : List ℕ), (∀ i ∈ indices, i < boxes.length) →
      recCut (boxes.map (translateBox dx dy)) pw ph cfg a1 cmp' fuel indices =
        recCut boxes pw ph cfg a1 cmp fuel indices := by
  intro fuel
  induction fuel with
  | zero =>
    intro indices _
    rfl
  | succ f ih =>
    intro indices hidx
    simp only [recCut]
    by_cases hb : indices.length ≤ 1
    · rw [if_pos hb, if_pos hb]
    · rw [if_neg hb, if_neg hb]
      rw [hmv]
      have hne : indices ≠ [] := by
        intro hcon
        rw [hcon] at hb
        simp at hb
      obtain ⟨hlen1, heq1⟩ := recCut_axis_block boxes dx dy pw ph cfg a1 cmp cmp' a1
        ha1 f indices hidx hne hfits ih
      by_cases h1 : 1 < (splitProjectionProfile (projectionByBboxes
          (indices.map fun idx => boxes.getD idx default) a1
          (axisSize pw ph a1)) 0 (minGapOf pw ph cfg a1)).length
      · rw [if_pos h1, if_pos (by rw [hlen1]; exact h1)]
        exact heq1
      · rw [if_neg h1, if_neg (by rw [hlen1]; exact h1)]
        have ha2 : 1 - a1 = 0 ∨ 1 - a1 = 1 := by
          rcases ha1 with h | h <;> subst h <;> simp
        obtain ⟨hlen2, heq2⟩ := recCut_axis_block boxes dx dy pw ph cfg a1 cmp cmp'
          (1 - a1) ha2 f indices hidx hne hfits ih
        by_cases h2 : 1 < (splitProjectionProfile (projectionByBboxes
            (indices.map fun idx => boxes.getD idx default) (1 - a1)
            (axisSize pw ph (1 - a1))) 0 (minGapOf pw ph cfg (1 - a1))).length
        · rw [if_pos h2, if_pos (by rw [hlen2]; exact h2)]
          exact heq2
        · rw [if_neg h2, if_neg (by rw [hlen2]; exact h2)]
          exact cppSort_congr cmp cmp' (fun i => i < boxes.length) hcmp indices hidx

/-- Counterexample to C9 as stated: translating both boxes right by 100
while growing the page extent proportionally (100 to 200) changes the
horizontal `minGap` from `max(1, trunc(100 * 0.05)) = 5` to
`max(1, trunc(200 * 0.05)) = 10`: the 6-pixel gap between the boxes
splits the untranslated page but not the translated one, and the reading
order flips from `[0, 1]` to `[1, 0]`. -/
theorem claim_C9_counterexample :
    cexC9Shifted = cexC9Orig.map (translateBox 100 0) ∧
    xycutPlusSort cexC9Orig 100 100 cfgH = [0, 1] ∧
    xycutPlusSort cexC9Shifted 200 100 cfgH = [1, 0] :=
  ⟨by decide, by decide, by decide⟩

/-- **C9** (amended): with the page extent and configuration held fixed,
translating every box by a constant nonnegative integer offset yields the
same reading order from `xycutPlusSort`, provided every box has integer
coordinates with positive extents and lies fully on the page both before
and after the translation, and the truncated `minValueRatio` is zero (as
with the default configuration). -/
theorem claim_C9_translationEquivariance (boxes : List LayoutBox) (dx dy pw ph : ℕ)
    (cfg : XYCutConfig) (hmv : cppTrunc cfg.minValueRatio = 0)
    (hfits : ∀ b ∈ boxes, IntBoxFits b dx dy pw ph) :
    xycutPlusSort (boxes.map (translateBox dx dy)) pw ph cfg =
      xycutPlusSort boxes pw ph cfg := by
  unfold xycutPlusSort
  by_cases hmt : boxes = []
  · rw [if_pos hmt, if_pos (by rw [hmt]; rfl)]
  · rw [if_neg hmt, if_neg (fun hc => hmt (List.map_eq_nil_iff.1 hc))]
    show (if (if cfg.direction = TextDirection.AUTO then
          detectTextDirection (boxes.map (translateBox dx dy)) else cfg.direction) =
          TextDirection.HORIZONTAL then
        recursiveXYCut (boxes.map (translateBox dx dy))
          ((boxes.map (translateBox dx dy)).length + 1)
          (List.range (boxes.map (translateBox dx dy)).length) pw ph cfg
      else
        recursiveYXCut (boxes.map (translateBox dx dy))
          ((boxes.map (translateBox dx dy)).length + 1)
          (List.range (boxes.map (translateBox dx dy)).length) pw ph cfg) =
      (if (if cfg.direction = TextDirection.AUTO then detectTextDirection boxes
          else cfg.direction) = TextDirection.HORIZONTAL then
        recursiveXYCut boxes (boxes.length + 1) (List.range boxes.length) pw ph cfg
      else recursiveYXCut boxes (boxes.length + 1) (List.range boxes.length) pw ph cfg)
    rw [detectTextDirection_translate, List.length_map]
    by_cases hdir : (if cfg.direction = TextDirection.AUTO then detectTextDirection boxes
        else cfg.direction) = TextDirection.HORIZONTAL
    · rw [if_pos hdir, if_pos hdir]
      unfold recursiveXYCut
      exact recCut_translate boxes dx dy pw ph cfg 0 (Or.inl rfl) (cmpXY boxes)
        (cmpXY (boxes.map (translateBox dx dy)))
        (fun a b ha hb => cmpXY_translate boxes dx dy a b ha hb) hmv hfits
        (boxes.length + 1) (List.range boxes.length)
        (fun i hi => List.mem_range.1 hi)
    · rw [if_neg hdir, if_neg hdir]
      unfold recursiveYXCut
      exact recCut_translate boxes dx dy pw ph cfg 1 (Or.inr rfl) (cmpYX boxes)
        (cmpYX (boxes.map (translateBox dx dy)))
        (fun a b ha hb => cmpYX_translate boxes dx dy a b ha hb) hmv hfits
        (boxes.length + 1) (List.range boxes.length)
        (fun i hi => List.mem_range.1 hi)

/-- Witness for the amended C9: the two concrete boxes shifted right by 3
on a fixed 200 × 100 page keep their reading order. -/
theorem claim_C9_witness :
    xycutPlusSort (cexC9Orig.map (translateBox 3 0)) 200 100 cfgH =
      xycutPlusSort cexC9Orig 200 100 cfgH :=
  claim_C9_translationEquivariance cexC9Orig 3 0 200 100 cfgH (by decide)
    (by
      intro b hb
      simp only [cexC9Orig, List.mem_cons, List.not_mem_nil, or_false] at hb
      rcases hb with rfl | rfl
      · exact ⟨⟨0, 10, by decide, by decide, by decide, by decide, by decide⟩,
          ⟨50, 90, by decide, by decide, by decide, by decide, by decide⟩⟩
      · exact ⟨⟨16, 26, by decide, by decide, by decide, by decide, by decide⟩,
          ⟨10, 50, by decide, by decide, by decide, by decide, by decide⟩⟩)

end RapidDoc
